import Mathlib

set_option linter.unusedSectionVars false

/-!
# LruCache

A shallow embedding of `include/LruCache.h` / `include/LruCache.hpp` and a
verification of its specification.

The class keeps two containers:

* `m_keyQueue : std::list<Key>`, modelled as a list of nodes; a node is a pair
  of a handle (the address of the list node, a natural number) and the key it
  stores.  A `std::list<Key>::iterator` is a node handle or the past-the-end
  position, so iterators stay valid while other nodes are inserted or erased.
* `m_map : std::unordered_map<Key, std::pair<Value, iterator>>`, modelled as an
  association list.

Member functions are state transformers: they return the outcome (a value or
the error that was thrown) together with the cache as it is left behind.  The
mutex is not part of the model; every call runs alone.

`UpdateKeyQueue` erases a node of the queue and then reads the key through the
iterator of the erased node.  What that read gives is not fixed by the
language; it is the parameter `ErasedRead.read` of the model.  Results that
hold whatever the read gives come first; results for key types that read back
unchanged (`SurvivingRead`, as `int` keys do in the tests of the repository)
are kept apart.
-/

namespace lru_cache

/-- The failures of the class, one for each `std::runtime_error` message in `LruCache.hpp`, and
`InvalidAccess` for a container call whose precondition is violated (erasing through an iterator
that designates no node, `back()` of an empty list). -/
inductive Error where
  /-- "Invalid capacity." -/
  | InvalidCapacity
  /-- "Requested key does not currently exist in the cache." -/
  | KeyNotFound
  /-- "Underlying containers content mismatch - logic error." -/
  | ContentMismatch
  /-- "After reaching capacity, failed to erase element from underlying container." -/
  | EraseFailed
  /-- "Failed to insert objects into the underlying container." -/
  | InsertFailed
  /-- Not thrown by the code: a standard container was used outside its contract. -/
  | InvalidAccess
  deriving DecidableEq, Repr

/-- The least value of the C++ type `int`. -/
def INT_MIN : Int := -2147483648

/-- The greatest value of the C++ type `int`. -/
def INT_MAX : Int := 2147483647

/-- A `std::list<Key>::iterator`: `some n` designates the node with handle `n`, `none` is
`end()`. -/
abbrev Iter := Option Nat

/-- A `std::list<Key>`: the nodes front to back, each with its handle and its key. -/
abbrev KeyQueue (K : Type) := List (Nat × K)

/-- A `std::unordered_map<Key, std::pair<Value, iterator>>` as an association list. -/
abbrev Index (K V : Type) := List (K × (V × Iter))

/-- What a key reads as through an iterator whose node `std::list::erase` has just destroyed and
freed.  `UpdateKeyQueue` makes this read: it calls `m_keyQueue.erase(keyToUpdate)` and then
evaluates `*keyToUpdate`.  The language leaves the result open and it depends on the key type
and on the library, so it is a parameter: `read key` is what is read where the erased node held
`key`. -/
class ErasedRead (K : Type) where
  /-- the key read from the freed node that held the given key -/
  read : K → K

/-- Key types for which a freed node still reads as the key it held, as `int` keys do in the
tests of the repository. -/
class SurvivingRead (K : Type) [ErasedRead K] : Prop where
  /-- the read gives the key back -/
  read_eq : ∀ key : K, ErasedRead.read key = key

section containers

variable {K V : Type} [DecidableEq K]

/-- The handle given to a newly allocated list node: one that no node of the list has. -/
def freshNode (q : KeyQueue K) : Nat :=
  (q.map Prod.fst).foldr max 0 + 1

/-- `std::list::end()`. -/
def list_end : Iter := none

/-- `std::list::begin()`: the front node, or `end()` for the empty list. -/
def list_begin : KeyQueue K → Iter
  | [] => none
  | (n, _) :: _ => some n

/-- `std::list::push_front`: a new node in front of all others. -/
def list_push_front (q : KeyQueue K) (key : K) : KeyQueue K :=
  (freshNode q, key) :: q

/-- `std::list::pop_front`. -/
def list_pop_front (q : KeyQueue K) : KeyQueue K :=
  q.tail

/-- `std::list::pop_back`. -/
def list_pop_back (q : KeyQueue K) : KeyQueue K :=
  q.dropLast

/-- `std::list::back()`: the key of the last node; `none` when the list is empty. -/
def list_back (q : KeyQueue K) : Option K :=
  q.getLast?.map Prod.snd

/-- The key stored in the node an iterator designates (`*it`); `none` when it designates no node
of the list. -/
def list_deref : KeyQueue K → Iter → Option K
  | _, none => none
  | [], some _ => none
  | (m, key) :: q, some n => if m = n then some key else list_deref q (some n)

/-- The list without the node the iterator designates; the other nodes keep their handles and
their order. -/
def list_unlink : KeyQueue K → Iter → KeyQueue K
  | q, none => q
  | [], some _ => []
  | (m, key) :: q, some n => if m = n then q else (m, key) :: list_unlink q (some n)

/-- `std::list::erase(it)`.  The iterator has to designate a node of the list: the result is
`none` when it does not.  Otherwise the node is unlinked, destroyed and freed; the result is the
list without it, together with the key the node held. -/
def list_erase (q : KeyQueue K) (it : Iter) : Option (KeyQueue K × K) :=
  match list_deref q it with
  | none => none
  | some key => some (list_unlink q it, key)

/-- `std::unordered_map::find`: the mapped value of the entry with this key, `none` for
`end()`. -/
def map_find : Index K V → K → Option (V × Iter)
  | [], _ => none
  | (k, p) :: m, key => if k = key then some p else map_find m key

/-- `std::unordered_map::erase(key)`: the map without the entry of the key. -/
def map_remove : Index K V → K → Index K V
  | [], _ => []
  | (k, p) :: m, key => if k = key then m else (k, p) :: map_remove m key

/-- `std::unordered_map::erase(key)`: the number of entries removed and the remaining map. -/
def map_erase (m : Index K V) (key : K) : Nat × Index K V :=
  (m.length - (map_remove m key).length, map_remove m key)

/-- `std::unordered_map::insert`: whether the entry was inserted (it is not when the key is
already present) and the resulting map. -/
def map_insert (m : Index K V) (key : K) (p : V × Iter) : Bool × Index K V :=
  match map_find m key with
  | some _ => (false, m)
  | none => (true, (key, p) :: m)

/-- Assignment through `findResult->second`: the mapped value of the entry with this key is
replaced by `f` of it. -/
def map_modify : Index K V → K → (V × Iter → V × Iter) → Index K V
  | [], _, _ => []
  | (k, p) :: m, key, f => if k = key then (k, f p) :: m else (k, p) :: map_modify m key f

end containers

/-- The data members of `class LruCache` (without the mutex). -/
structure LruCache (K V : Type) where
  /-- `const size_t m_capacity` -/
  m_capacity : Nat
  /-- `m_map`: key to (value, iterator into `m_keyQueue`) -/
  m_map : Index K V
  /-- `m_keyQueue`: "This list is used as a queue - The front holds the newest item." -/
  m_keyQueue : KeyQueue K

namespace LruCache

variable {K V : Type} [DecidableEq K]

/-- `LruCache::LruCache(const int capacity)`: `m_capacity` is initialised with the argument
converted to `size_t`, then a capacity `0 >= capacity` is rejected. -/
def construct (capacity : Int) : Except Error (LruCache K V) :=
  let c : LruCache K V :=
    { m_capacity := (capacity % 2 ^ 64).toNat, m_map := [], m_keyQueue := [] }
  if 0 ≥ capacity then .error .InvalidCapacity else .ok c

/-- `LruCache::GetCapacity`. -/
def GetCapacity (c : LruCache K V) : Nat :=
  c.m_capacity

/-- `LruCache::UpdateKeyQueue(iterator& keyToUpdate)`, statement by statement.  First
`m_keyQueue.erase(keyToUpdate)`: the node leaves the queue and is freed.  Then the iterator,
which designates the freed node, is compared with `end()` and dereferenced, and what this read
gives (`ErasedRead.read` of the key the node held) is pushed to the front.  The iterator, passed
by reference, ends as `begin()` and is returned. -/
def UpdateKeyQueue [ErasedRead K] (c : LruCache K V) (keyToUpdate : Iter) :
    Except Error Iter × LruCache K V :=
  match list_erase c.m_keyQueue keyToUpdate with
  | none => (.error .InvalidAccess, c)
  | some (q1, freed) =>
    let q2 := if list_end ≠ keyToUpdate then list_push_front q1 (ErasedRead.read freed) else q1
    (.ok (list_begin q2), { c with m_keyQueue := q2 })

/-- `LruCache::RemoveLeastRecentlyUsedItem`. -/
def RemoveLeastRecentlyUsedItem (c : LruCache K V) : Except Error Unit × LruCache K V :=
  match list_back c.m_keyQueue with
  | none => (.error .InvalidAccess, c)
  | some backKey =>
    match map_find c.m_map backKey with
    | none => (.error .ContentMismatch, c)
    | some _ =>
      let r := map_erase c.m_map backKey
      if 1 ≠ r.1 then (.error .EraseFailed, { c with m_map := r.2 })
      else (.ok (), { c with m_map := r.2, m_keyQueue := list_pop_back c.m_keyQueue })

/-- `LruCache::InsertNewPair`. -/
def InsertNewPair (c : LruCache K V) (key : K) (value : V) : Except Error Unit × LruCache K V :=
  let q1 := list_push_front c.m_keyQueue key
  let r := map_insert c.m_map key (value, list_begin q1)
  if !r.1 then (.error .InsertFailed, { c with m_map := r.2, m_keyQueue := list_pop_front q1 })
  else (.ok (), { c with m_map := r.2, m_keyQueue := q1 })

/-- `LruCache::Get`. -/
def Get [ErasedRead K] (c : LruCache K V) (key : K) : Except Error V × LruCache K V :=
  match map_find c.m_map key with
  | none => (.error .KeyNotFound, c)
  | some findResult =>
    match UpdateKeyQueue c findResult.2 with
    | (.error e, c1) => (.error e, c1)
    | (.ok it, c1) =>
      (.ok findResult.1, { c1 with m_map := map_modify c1.m_map key (fun p => (p.1, it)) })

/-- `LruCache::Set`. -/
def Set [ErasedRead K] (c : LruCache K V) (key : K) (value : V) :
    Except Error Unit × LruCache K V :=
  match map_find c.m_map key with
  | some findResult =>
    match UpdateKeyQueue c findResult.2 with
    | (.error e, c1) => (.error e, c1)
    | (.ok it, c1) =>
      let m1 := map_modify c1.m_map key (fun p => (p.1, it))
      (.ok (), { c1 with m_map := map_modify m1 key (fun p => (value, p.2)) })
  | none =>
    if c.m_map.length = c.m_capacity then
      match RemoveLeastRecentlyUsedItem c with
      | (.error e, c1) => (.error e, c1)
      | (.ok _, c1) => InsertNewPair c1 key value
    else
      InsertNewPair c key value

/-- The recency ordering: the keys of `m_keyQueue`, front (newest) to back. -/
def keys (c : LruCache K V) : List K :=
  c.m_keyQueue.map Prod.snd

/-- The value the index holds for a key; `none` when `m_map.find` gives `end()`. -/
def lookup (c : LruCache K V) (key : K) : Option V :=
  (map_find c.m_map key).map Prod.fst

/-- A key is resident when `m_map.find` finds it. -/
def resident (c : LruCache K V) (key : K) : Prop :=
  (map_find c.m_map key).isSome = true

instance (c : LruCache K V) (key : K) : Decidable (resident c key) :=
  inferInstanceAs (Decidable ((map_find c.m_map key).isSome = true))

/-- The index entry of the key designates a node of the queue. -/
def liveEntry (c : LruCache K V) (key : K) : Prop :=
  ∃ p n, map_find c.m_map key = some p ∧ p.2 = some n ∧ n ∈ c.m_keyQueue.map Prod.fst

/-- What the member functions maintain whatever a read through an erased iterator gives. -/
structure Tracked (c : LruCache K V) : Prop where
  /-- the capacity is positive -/
  cap_pos : 0 < c.m_capacity
  /-- both containers have the same number of elements -/
  size_eq : c.m_map.length = c.m_keyQueue.length
  /-- never more elements than the capacity -/
  size_le : c.m_map.length ≤ c.m_capacity
  /-- the index has one entry for a key -/
  map_nodup : (c.m_map.map Prod.fst).Nodup
  /-- front to back the node handles decrease: a node is allocated above the nodes behind it -/
  sorted : (c.m_keyQueue.map Prod.fst).Pairwise (fun a b => b < a)
  /-- the iterator of an index entry designates a node of the queue, or a node that was removed
  from the back of the queue, below all nodes of the queue, of which there are at least two -/
  tracked : ∀ key p, map_find c.m_map key = some p → ∃ n, p.2 = some n ∧
    (n ∈ c.m_keyQueue.map Prod.fst ∨
      ((∀ m ∈ c.m_keyQueue.map Prod.fst, n < m) ∧ 2 ≤ c.m_keyQueue.length))
  /-- two entries do not designate the same node of the queue -/
  inj : ∀ k1 k2 p1 p2 n, map_find c.m_map k1 = some p1 → map_find c.m_map k2 = some p2 →
    p1.2 = some n → p2.2 = some n → n ∈ c.m_keyQueue.map Prod.fst → k1 = k2

/-- The consistency of the two containers that the class is meant to maintain; the member
functions maintain it for key types with `SurvivingRead`. -/
structure WF (c : LruCache K V) : Prop where
  /-- the capacity is positive -/
  cap_pos : 0 < c.m_capacity
  /-- the index has one entry for a key -/
  map_nodup : (c.m_map.map Prod.fst).Nodup
  /-- the nodes of the queue are distinct -/
  node_nodup : (c.m_keyQueue.map Prod.fst).Nodup
  /-- no key is queued twice -/
  key_nodup : (c.m_keyQueue.map Prod.snd).Nodup
  /-- the iterator of an index entry designates a queue node that holds the key of the entry -/
  map_to_queue : ∀ key p, map_find c.m_map key = some p →
    ∃ n, p.2 = some n ∧ (n, key) ∈ c.m_keyQueue
  /-- every queued key is in the index -/
  queue_to_map : ∀ n key, (n, key) ∈ c.m_keyQueue → (map_find c.m_map key).isSome = true
  /-- both containers have the same number of elements -/
  size_eq : c.m_map.length = c.m_keyQueue.length
  /-- never more elements than the capacity -/
  size_le : c.m_map.length ≤ c.m_capacity

/-- The cache after a hit on `key`: the node `n` of its entry left the queue, a new node
holding `pushed` is in front, and the mapped value of the entry is replaced by `F` of it. -/
def afterHit (c : LruCache K V) (key : K) (n : Nat) (pushed : K) (F : V × Iter → V × Iter) :
    LruCache K V :=
  { c with
    m_keyQueue := list_push_front (list_unlink c.m_keyQueue (some n)) pushed
    m_map := map_modify c.m_map key F }

/-- The cache after the entry of `key`, whose node is `n`, was moved to the front and its
mapped value replaced by `F` of it. -/
def promoted (c : LruCache K V) (key : K) (n : Nat) (F : V × Iter → V × Iter) : LruCache K V :=
  { c with
    m_keyQueue := list_push_front (list_unlink c.m_keyQueue (some n)) key
    m_map := map_modify c.m_map key F }

/-- The cache after the entry of `backKey` left the index and the last node left the queue. -/
def evicted (c : LruCache K V) (backKey : K) : LruCache K V :=
  { c with
    m_map := map_remove c.m_map backKey
    m_keyQueue := list_pop_back c.m_keyQueue }

/-- The cache after a new node for `key` was put in front of the queue and an entry for `key`
that designates this node was added to the index. -/
def inserted (c : LruCache K V) (key : K) (value : V) : LruCache K V :=
  { c with
    m_map := (key, (value, some (freshNode c.m_keyQueue))) :: c.m_map
    m_keyQueue := list_push_front c.m_keyQueue key }

end LruCache

/-- A call of one of the two public member functions that work on the contents. -/
inductive Op (K V : Type) where
  /-- `cache.Get(key)` -/
  | Get (key : K)
  /-- `cache.Set(key, value)` -/
  | Set (key : K) (value : V)

section histories

variable {K V : Type} [DecidableEq K]

/-- The key a call is made with. -/
def opKey : Op K V → K
  | .Get key => key
  | .Set key _ => key

/-- The cache after a call. -/
def step [ErasedRead K] (c : LruCache K V) : Op K V → LruCache K V
  | .Get key => (c.Get key).2
  | .Set key value => (c.Set key value).2

/-- What a call gives back: the value of a `Get`, nothing for a `Set`, or the error thrown. -/
def outcome [ErasedRead K] (c : LruCache K V) : Op K V → Except Error (Option V)
  | .Get key => (c.Get key).1.map some
  | .Set key value => (c.Set key value).1.map (fun _ => none)

/-- The cache after a sequence of calls, first call first. -/
def runOps [ErasedRead K] (c : LruCache K V) (ops : List (Op K V)) : LruCache K V :=
  ops.foldl step c

/-- The key a call touches: the key of a `Get` that returns a value, the key of a `Set`. -/
def touched [ErasedRead K] (c : LruCache K V) : Op K V → Option K
  | .Get key =>
    match (c.Get key).1 with
    | .ok _ => some key
    | .error _ => none
  | .Set key _ => some key

/-- For each call of a history, in order, the key it touches. -/
def touchLog [ErasedRead K] (c : LruCache K V) : List (Op K V) → List (Option K)
  | [] => []
  | op :: ops => touched c op :: touchLog (step c op) ops

/-- The position (from 0) of the last entry of a touch log that touches the key. -/
def lastTouch : List (Option K) → K → Option Nat
  | [], _ => none
  | t :: log, key =>
    match lastTouch log key with
    | some i => some (i + 1)
    | none => if t = some key then some 0 else none

/-- In the touch log, `a` has a last touch, `b` has one, and that of `a` is the later one. -/
def touchedAfter (log : List (Option K)) (a b : K) : Prop :=
  ∃ ta tb, lastTouch log a = some ta ∧ lastTouch log b = some tb ∧ tb < ta

/-- In the list, `j` stands before the first `k`. -/
def comesBefore (j k : K) (l : List K) : Prop :=
  ∃ a b, l = a ++ k :: b ∧ j ∈ a

/-- The states of a cache: one successfully constructed from an `int`, and every state a `Get`
or a `Set` leaves behind. -/
inductive Reachable [ErasedRead K] : LruCache K V → Prop where
  | construct (capacity : Int) (c : LruCache K V) :
      INT_MIN ≤ capacity → capacity ≤ INT_MAX → LruCache.construct capacity = .ok c →
      Reachable c
  | Get (c : LruCache K V) (key : K) : Reachable c → Reachable (c.Get key).2
  | Set (c : LruCache K V) (key : K) (value : V) : Reachable c → Reachable (c.Set key value).2

/-- The key a call sets: the key of a `Set`, nothing for a `Get`. -/
def setKey : Op K V → Option K
  | .Set key _ => some key
  | .Get _ => none

/-- The keys of the `Set` calls of a sequence, in order, with repetitions. -/
def setKeys (ops : List (Op K V)) : List K :=
  ops.filterMap setKey

/-- The value of the last `Set` on the key in a sequence of calls; `none` when the sequence has
no `Set` on the key. -/
def lastSet : List (Op K V) → K → Option V
  | [], _ => none
  | op :: ops, key =>
    match lastSet ops key with
    | some v => some v
    | none =>
      match op with
      | .Set k v => if k = key then some v else none
      | .Get _ => none

/-- What each call of a sequence gives back, in order. -/
def outcomes [ErasedRead K] (c : LruCache K V) : List (Op K V) → List (Except Error (Option V))
  | [] => []
  | op :: ops => outcome c op :: outcomes (step c op) ops

/-- Reference model: the value paired with the key in a list of (key, value) pairs. -/
def refFind : List (K × V) → K → Option V
  | [], _ => none
  | (k, v) :: l, key => if k = key then some v else refFind l key

/-- Reference model, `Get`: fails when the key is absent; otherwise moves the pair of the key
to the front and returns its value. -/
def refGet (l : List (K × V)) (key : K) : Except Error V × List (K × V) :=
  match refFind l key with
  | none => (.error .KeyNotFound, l)
  | some v => (.ok v, (key, v) :: l.filter (fun e => decide (e.1 ≠ key)))

/-- Reference model, `Set`: removes any pair with the key, puts the new pair at the front and
truncates the list to the capacity. -/
def refSet (capacity : Nat) (l : List (K × V)) (key : K) (value : V) :
    Except Error Unit × List (K × V) :=
  (.ok (), ((key, value) :: l.filter (fun e => decide (e.1 ≠ key))).take capacity)

/-- Reference model: the list after a call. -/
def refStep (capacity : Nat) (l : List (K × V)) : Op K V → List (K × V)
  | .Get key => (refGet l key).2
  | .Set key value => (refSet capacity l key value).2

/-- Reference model: what a call gives back. -/
def refOutcome (capacity : Nat) (l : List (K × V)) : Op K V → Except Error (Option V)
  | .Get key => (refGet l key).1.map some
  | .Set key value => (refSet capacity l key value).1.map (fun _ => none)

/-- Reference model: the list after a sequence of calls. -/
def refRun (capacity : Nat) (l : List (K × V)) (ops : List (Op K V)) : List (K × V) :=
  ops.foldl (refStep capacity) l

/-- Reference model: what each call of a sequence gives back, in order. -/
def refOutcomes (capacity : Nat) (l : List (K × V)) :
    List (Op K V) → List (Except Error (Option V))
  | [] => []
  | op :: ops => refOutcome capacity l op :: refOutcomes capacity (refStep capacity l op) ops

/-- The cache and a list of the reference model hold the same: the keys of the list are the
recency ordering, and each pair of the list is what the index holds for its key. -/
def Sim (c : LruCache K V) (l : List (K × V)) : Prop :=
  l.map Prod.fst = c.keys ∧ ∀ e ∈ l, c.lookup e.1 = some e.2

end histories

section examples

/-- The keys of the tests are `int`s, modelled as natural numbers: the freed node reads as the
key it held. -/
instance : ErasedRead Nat :=
  ⟨fun key => key⟩

instance : SurvivingRead Nat :=
  ⟨fun _ => rfl⟩

/-- An example: the empty cache that `LruCache<int, int> myCache(2)` constructs. -/
def exampleEmpty : LruCache Nat Nat :=
  { m_capacity := 2, m_map := [], m_keyQueue := [] }

/-- An example: the cache of capacity 2 after `Set(0,0)` and `Set(1,1)`, which is full. -/
def exampleFull : LruCache Nat Nat :=
  runOps exampleEmpty [.Set 0 0, .Set 1 1]

/-- An example: the empty cache that `LruCache<int, int> myCache(100)` constructs. -/
def exampleHundred : LruCache Nat Nat :=
  { m_capacity := 100, m_map := [], m_keyQueue := [] }

/-- An example: `Set(i,i)` for `i` from 0 to 99, then `Get(j)` for `j` from 0 to 70. -/
def exampleHistory : List (Op Nat Nat) :=
  (List.range 100).map (fun i => Op.Set i i) ++ (List.range 71).map (fun j => Op.Get j)

/-- An example key type that does not survive its destruction, as `std::string` keys of 16 or
more characters: `text i` is the `i`-th such string, and `garbage` is the string that a read
through an erased iterator gives, whichever key the node held. -/
inductive LongKey where
  /-- a key of 16 or more characters -/
  | text (i : Nat)
  /-- what is read from a freed node -/
  | garbage
  deriving DecidableEq, Repr

instance : ErasedRead LongKey :=
  ⟨fun _ => LongKey.garbage⟩

/-- An example: the empty cache that `LruCache<std::string, int> myCache(1)` constructs. -/
def exampleLongOne : LruCache LongKey Nat :=
  { m_capacity := 1, m_map := [], m_keyQueue := [] }

/-- An example: the empty cache that `LruCache<std::string, int> myCache(2)` constructs. -/
def exampleLongTwo : LruCache LongKey Nat :=
  { m_capacity := 2, m_map := [], m_keyQueue := [] }

/-- An example: a key `A` of 16 or more characters. -/
def longA : LongKey := LongKey.text 0

/-- An example: another key `B` of 16 or more characters. -/
def longB : LongKey := LongKey.text 1

/-- An example: the cache of capacity 1 after `Set(A,0)` and `Get(A)`. -/
def exampleLongHit : LruCache LongKey Nat :=
  runOps exampleLongOne [.Set longA 0, .Get longA]

/-- An example: the cache of capacity 2 after `Set(A,0)` and `Set(B,1)`, which is full. -/
def exampleLongPair : LruCache LongKey Nat :=
  runOps exampleLongTwo [.Set longA 0, .Set longB 1]

/-- An example: calls on the cache of capacity 2 in which the caller uses, as a key of its own,
the string that the read through the erased iterator gives. -/
def exampleLongShadowHistory : List (Op LongKey Nat) :=
  [.Set longA 0, .Get longA, .Set LongKey.garbage 1]

/-- An example: the cache of capacity 2 after `exampleLongShadowHistory`. -/
def exampleLongShadow : LruCache LongKey Nat :=
  runOps exampleLongTwo exampleLongShadowHistory

end examples

/-! ## The containers -/

section queue_lemmas

variable {K : Type}

theorem le_foldr_max (l : List Nat) : ∀ n ∈ l, n ≤ l.foldr max 0 := by
  induction l with
  | nil => simp
  | cons a l ih =>
    intro n hn
    simp only [List.mem_cons] at hn
    simp only [List.foldr_cons]
    rcases hn with rfl | hn
    · exact le_max_left _ _
    · exact le_trans (ih n hn) (le_max_right _ _)

theorem freshNode_not_mem (q : KeyQueue K) : freshNode q ∉ q.map Prod.fst := by
  intro h
  have := le_foldr_max _ _ h
  unfold freshNode at this
  omega

theorem list_deref_mem (q : KeyQueue K) (n : Nat) (key : K) :
    list_deref q (some n) = some key → (n, key) ∈ q := by
  induction q with
  | nil => simp [list_deref]
  | cons e q ih =>
    obtain ⟨m, k⟩ := e
    by_cases h : m = n
    · subst h
      simp only [list_deref, if_true, Option.some.injEq, List.mem_cons]
      intro hk
      exact Or.inl (by rw [hk])
    · simp only [list_deref, h, if_false, List.mem_cons]
      intro hk
      exact Or.inr (ih hk)

theorem list_deref_of_mem (q : KeyQueue K) (n : Nat) (key : K) (hq : (q.map Prod.fst).Nodup)
    (h : (n, key) ∈ q) : list_deref q (some n) = some key := by
  induction q with
  | nil => simp at h
  | cons e q ih =>
    obtain ⟨m, k⟩ := e
    simp only [List.map_cons, List.nodup_cons] at hq
    simp only [List.mem_cons, Prod.mk.injEq] at h
    rcases h with ⟨rfl, rfl⟩ | h
    · simp [list_deref]
    · have hne : m ≠ n := by
        rintro rfl
        exact hq.1 (List.mem_map_of_mem Prod.fst h)
      simp only [list_deref, hne, if_false]
      exact ih hq.2 h

theorem list_unlink_sublist (q : KeyQueue K) (it : Iter) : (list_unlink q it).Sublist q := by
  cases it with
  | none => cases q <;> simp [list_unlink]
  | some n =>
    induction q with
    | nil => simp [list_unlink]
    | cons e q ih =>
      obtain ⟨m, k⟩ := e
      by_cases h : m = n
      · simp [list_unlink, h]
      · simp only [list_unlink, h, if_false]
        exact ih.cons₂ _

theorem list_unlink_length (q : KeyQueue K) (n : Nat) (key : K)
    (h : list_deref q (some n) = some key) : (list_unlink q (some n)).length + 1 = q.length := by
  induction q with
  | nil => simp [list_deref] at h
  | cons e q ih =>
    obtain ⟨m, k⟩ := e
    by_cases hm : m = n
    · simp [list_unlink, hm]
    · simp only [list_deref, hm, if_false] at h
      simp [list_unlink, hm, ih h]

theorem mem_list_unlink (q : KeyQueue K) (n : Nat) (key : K) (n1 : Nat) (j : K)
    (h : list_deref q (some n) = some key) (hj : j ≠ key) (hmem : (n1, j) ∈ q) :
    (n1, j) ∈ list_unlink q (some n) := by
  induction q with
  | nil => simp at hmem
  | cons e q ih =>
    obtain ⟨m, k⟩ := e
    by_cases hm : m = n
    · subst hm
      simp only [list_deref, if_true, Option.some.injEq] at h
      subst h
      simp only [List.mem_cons, Prod.mk.injEq] at hmem
      rcases hmem with ⟨_, rfl⟩ | hmem
      · exact absurd rfl hj
      · simpa [list_unlink] using hmem
    · simp only [list_deref, hm, if_false] at h
      simp only [list_unlink, hm, if_false, List.mem_cons]
      simp only [List.mem_cons] at hmem
      rcases hmem with hmem | hmem
      · exact Or.inl hmem
      · exact Or.inr (ih h hmem)

end queue_lemmas

section container_lemmas

variable {K V : Type} [DecidableEq K]

theorem list_unlink_keys (q : KeyQueue K) (n : Nat) (key : K)
    (h : list_deref q (some n) = some key) (hq : (q.map Prod.snd).Nodup) :
    (list_unlink q (some n)).map Prod.snd = (q.map Prod.snd).erase key := by
  induction q with
  | nil => simp [list_deref] at h
  | cons e q ih =>
    obtain ⟨m, k⟩ := e
    simp only [List.map_cons, List.nodup_cons] at hq
    by_cases hm : m = n
    · subst hm
      simp only [list_deref, if_true, Option.some.injEq] at h
      subst h
      simp [list_unlink]
    · simp only [list_deref, hm, if_false] at h
      have hne : k ≠ key := by
        rintro rfl
        exact hq.1 (List.mem_map_of_mem Prod.snd (list_deref_mem q n k h))
      simp only [list_unlink, hm, if_false, List.map_cons]
      rw [List.erase_cons_tail (by simpa using hne), ih h hq.2]

theorem map_find_eq_none_iff (m : Index K V) (key : K) :
    map_find m key = none ↔ key ∉ m.map Prod.fst := by
  induction m with
  | nil => simp [map_find]
  | cons e m ih =>
    obtain ⟨k, p⟩ := e
    by_cases h : k = key
    · simp [map_find, h]
    · simp [map_find, h, ih, Ne.symm h]

theorem map_find_mem (m : Index K V) (key : K) (p : V × Iter) :
    map_find m key = some p → (key, p) ∈ m := by
  induction m with
  | nil => simp [map_find]
  | cons e m ih =>
    obtain ⟨k, p0⟩ := e
    by_cases h : k = key
    · subst h
      simp only [map_find, if_true, Option.some.injEq, List.mem_cons]
      intro hp
      exact Or.inl (by rw [hp])
    · simp only [map_find, h, if_false, List.mem_cons]
      intro hp
      exact Or.inr (ih hp)

theorem map_find_modify (m : Index K V) (key : K) (f : V × Iter → V × Iter) (j : K) :
    map_find (map_modify m key f) j =
      if j = key then (map_find m key).map f else map_find m j := by
  induction m with
  | nil => simp [map_find, map_modify]
  | cons e m ih =>
    obtain ⟨k, p⟩ := e
    by_cases h : k = key
    · subst h
      by_cases hj : j = k
      · subst hj
        simp [map_find, map_modify]
      · simp [map_find, map_modify, hj, Ne.symm hj]
    · by_cases hj : j = key
      · subst hj
        simp [map_find, map_modify, h, ih]
      · by_cases hk : k = j
        · simp [map_find, map_modify, h, hj, hk]
        · simp [map_find, map_modify, h, hj, hk, ih]

theorem map_modify_keys (m : Index K V) (key : K) (f : V × Iter → V × Iter) :
    (map_modify m key f).map Prod.fst = m.map Prod.fst := by
  induction m with
  | nil => simp [map_modify]
  | cons e m ih =>
    obtain ⟨k, p⟩ := e
    by_cases h : k = key
    · simp [map_modify, h]
    · simp [map_modify, h, ih]

theorem map_modify_length (m : Index K V) (key : K) (f : V × Iter → V × Iter) :
    (map_modify m key f).length = m.length := by
  have := congrArg List.length (map_modify_keys m key f)
  simpa using this

theorem map_remove_keys (m : Index K V) (key : K) :
    (map_remove m key).map Prod.fst = (m.map Prod.fst).erase key := by
  induction m with
  | nil => simp [map_remove]
  | cons e m ih =>
    obtain ⟨k, p⟩ := e
    by_cases h : k = key
    · simp [map_remove, h]
    · simp [map_remove, h, ih, List.erase_cons_tail]

theorem map_find_remove_ne (m : Index K V) (key j : K) (hj : j ≠ key) :
    map_find (map_remove m key) j = map_find m j := by
  induction m with
  | nil => simp [map_remove]
  | cons e m ih =>
    obtain ⟨k, p⟩ := e
    by_cases h : k = key
    · subst h
      simp [map_remove, map_find, Ne.symm hj]
    · simp [map_remove, map_find, h, ih]

theorem map_find_remove_self (m : Index K V) (key : K) (hm : (m.map Prod.fst).Nodup) :
    map_find (map_remove m key) key = none := by
  rw [map_find_eq_none_iff, map_remove_keys]
  exact fun h => (List.Nodup.mem_erase_iff hm).1 h |>.1 rfl

theorem map_remove_length (m : Index K V) (key : K) (h : (map_find m key).isSome = true) :
    (map_remove m key).length + 1 = m.length := by
  have hmem : key ∈ m.map Prod.fst := by
    by_contra hc
    rw [(map_find_eq_none_iff m key).2 hc] at h
    simp at h
  have h1 := congrArg List.length (map_remove_keys m key)
  rw [List.length_erase_of_mem hmem] at h1
  have h2 : 0 < (m.map Prod.fst).length := List.length_pos_of_mem hmem
  simp only [List.length_map] at h1 h2
  omega

theorem map_modify_modify (m : Index K V) (key : K) (f g : V × Iter → V × Iter) :
    map_modify (map_modify m key f) key g = map_modify m key (fun p => g (f p)) := by
  induction m with
  | nil => simp [map_modify]
  | cons e m ih =>
    obtain ⟨k, p⟩ := e
    by_cases h : k = key
    · simp [map_modify, h]
    · simp [map_modify, h, ih]

theorem map_modify_fixed (m : Index K V) (key : K) (F : V × Iter → V × Iter) (p : V × Iter)
    (h : map_find m key = some p) (hF : F p = p) : map_modify m key F = m := by
  induction m with
  | nil => simp [map_find] at h
  | cons e m ih =>
    obtain ⟨k, p0⟩ := e
    by_cases hk : k = key
    · simp only [map_find, hk, if_true, Option.some.injEq] at h
      subst h
      simp [map_modify, hk, hF]
    · simp only [map_find, hk, if_false] at h
      simp [map_modify, hk, ih h]

/-- Between the `erase` and the assignment of `begin()` in `UpdateKeyQueue` the iterator
designates no node of the queue. -/
theorem list_deref_erased (q : KeyQueue K) (n : Nat) (hq : (q.map Prod.fst).Nodup) :
    list_deref (list_unlink q (some n)) (some n) = none := by
  induction q with
  | nil => simp [list_unlink, list_deref]
  | cons e q ih =>
    obtain ⟨m, k⟩ := e
    simp only [List.map_cons, List.nodup_cons] at hq
    by_cases hm : m = n
    · subst hm
      simp only [list_unlink, if_true]
      cases hd : list_deref q (some m) with
      | none => rfl
      | some key => exact absurd (List.mem_map_of_mem Prod.fst (list_deref_mem q m key hd)) hq.1
    · simp only [list_unlink, hm, if_false, list_deref]
      exact ih hq.2

end container_lemmas

section more_container_lemmas

variable {K V : Type} [DecidableEq K]

theorem list_deref_eq_none_iff (q : KeyQueue K) (n : Nat) :
    list_deref q (some n) = none ↔ n ∉ q.map Prod.fst := by
  induction q with
  | nil => simp [list_deref]
  | cons e q ih =>
    obtain ⟨m, k⟩ := e
    by_cases h : m = n
    · simp [list_deref, h]
    · simp [list_deref, h, ih, Ne.symm h]

theorem list_deref_of_handle (q : KeyQueue K) (n : Nat) (h : n ∈ q.map Prod.fst) :
    ∃ held, list_deref q (some n) = some held := by
  cases hd : list_deref q (some n) with
  | none => exact absurd h ((list_deref_eq_none_iff q n).1 hd)
  | some held => exact ⟨held, rfl⟩

theorem handle_of_list_deref (q : KeyQueue K) (n : Nat) (held : K)
    (h : list_deref q (some n) = some held) : n ∈ q.map Prod.fst :=
  List.mem_map_of_mem Prod.fst (list_deref_mem q n held h)

theorem list_deref_end (q : KeyQueue K) : list_deref q none = none := by
  cases q <;> rfl

theorem list_unlink_handles (q : KeyQueue K) (n : Nat) :
    (list_unlink q (some n)).map Prod.fst = (q.map Prod.fst).erase n := by
  induction q with
  | nil => simp [list_unlink]
  | cons e q ih =>
    obtain ⟨m, k⟩ := e
    by_cases h : m = n
    · simp [list_unlink, h]
    · simp [list_unlink, h, ih, List.erase_cons_tail]

theorem list_unlink_length_of_handle (q : KeyQueue K) (n : Nat) (h : n ∈ q.map Prod.fst) :
    (list_unlink q (some n)).length + 1 = q.length := by
  obtain ⟨held, hd⟩ := list_deref_of_handle q n h
  exact list_unlink_length q n held hd

theorem lt_freshNode (q : KeyQueue K) (m : Nat) (h : m ∈ q.map Prod.fst) : m < freshNode q := by
  have := le_foldr_max _ _ h
  unfold freshNode
  omega

theorem mem_dropLast_or_lt (l : List Nat) (h : l.Pairwise (fun a b => b < a)) (n : Nat)
    (hn : n ∈ l) : n ∈ l.dropLast ∨ ∀ m ∈ l.dropLast, n < m := by
  induction l using List.reverseRecOn with
  | nil => simp at hn
  | append_singleton l a _ =>
    rw [List.dropLast_concat]
    simp only [List.mem_append, List.mem_singleton] at hn
    rcases hn with hn | rfl
    · exact Or.inl hn
    · right
      intro m hm
      rw [List.pairwise_append] at h
      exact h.2.2 m hm _ (by simp)

theorem handles_dropLast (q : KeyQueue K) :
    q.dropLast.map Prod.fst = (q.map Prod.fst).dropLast := by
  simp [List.map_dropLast]

theorem exists_mem_of_length_pos (q : KeyQueue K) (h : 0 < q.length) :
    ∃ m, m ∈ q.map Prod.fst := by
  cases q with
  | nil => simp at h
  | cons e q => exact ⟨e.1, by simp⟩

theorem map_find_mem_keys (m : Index K V) (key : K) (p : V × Iter)
    (h : map_find m key = some p) : key ∈ m.map Prod.fst := by
  by_contra hnot
  rw [(map_find_eq_none_iff m key).2 hnot] at h
  cases h

theorem two_le_length_of_find (m : Index K V) (k1 k2 : K) (p1 p2 : V × Iter)
    (h1 : map_find m k1 = some p1) (h2 : map_find m k2 = some p2) (hne : k1 ≠ k2) :
    2 ≤ m.length := by
  have hsub : [k1, k2] ⊆ m.map Prod.fst := by
    intro a ha
    simp only [List.mem_cons, List.mem_singleton, List.not_mem_nil, or_false] at ha
    rcases ha with rfl | rfl
    · exact map_find_mem_keys m _ p1 h1
    · exact map_find_mem_keys m _ p2 h2
  have hnd : [k1, k2].Nodup := by simp [hne]
  have := (List.subperm_of_subset hnd hsub).length_le
  simpa using this

theorem map_find_remove (m : Index K V) (hm : (m.map Prod.fst).Nodup) (key j : K) :
    map_find (map_remove m key) j = if j = key then none else map_find m j := by
  by_cases h : j = key
  · subst h
    simp only [if_true]
    exact map_find_remove_self m j hm
  · simp only [h, if_false]
    exact map_find_remove_ne m key j h

end more_container_lemmas

/-! ## The member functions, whatever a read through an erased iterator gives -/

namespace LruCache

variable {K V : Type} [DecidableEq K] [ErasedRead K]

theorem construct_eq_ok (capacity : Int) (c : LruCache K V) (h : construct capacity = .ok c) :
    0 < capacity ∧
      c = { m_capacity := (capacity % 2 ^ 64).toNat, m_map := [], m_keyQueue := [] } := by
  simp only [construct] at h
  split_ifs at h with h0
  simp only [Except.ok.injEq] at h
  exact ⟨by omega, h.symm⟩

theorem Get_absent (c : LruCache K V) (key : K) (h : map_find c.m_map key = none) :
    Get c key = (.error .KeyNotFound, c) := by
  simp only [Get, h]

theorem InsertNewPair_eq (c : LruCache K V) (key : K) (value : V)
    (h : map_find c.m_map key = none) :
    InsertNewPair c key value = (.ok (), inserted c key value) := by
  simp [InsertNewPair, map_insert, h, inserted, list_begin, list_push_front]

theorem keys_inserted (c : LruCache K V) (key : K) (value : V) :
    keys (inserted c key value) = key :: keys c := by
  simp [keys, inserted, list_push_front]

theorem map_find_inserted (c : LruCache K V) (key : K) (value : V) (j : K) :
    map_find (inserted c key value).m_map j =
      if j = key then some (value, some (freshNode c.m_keyQueue)) else map_find c.m_map j := by
  by_cases h : j = key
  · simp [inserted, map_find, h]
  · simp [inserted, map_find, h, Ne.symm h]

theorem keys_evicted (c : LruCache K V) (backKey : K) :
    keys (evicted c backKey) = (keys c).dropLast := by
  simp [keys, evicted, list_pop_back]

theorem back_node (c : LruCache K V) (backKey : K) (hb : (keys c).getLast? = some backKey) :
    ∃ n, c.m_keyQueue = c.m_keyQueue.dropLast ++ [(n, backKey)] := by
  simp only [keys, List.getLast?_map, Option.map_eq_some'] at hb
  obtain ⟨e, he, rfl⟩ := hb
  exact ⟨e.1, (List.dropLast_append_getLast? e he).symm⟩

theorem Set_new_room (c : LruCache K V) (key : K) (value : V)
    (h : map_find c.m_map key = none) (hroom : c.m_map.length ≠ c.m_capacity) :
    Set c key value = (.ok (), inserted c key value) := by
  simp only [Set, h, hroom, if_false]
  exact InsertNewPair_eq c key value h

theorem UpdateKeyQueue_eq (c : LruCache K V) (n : Nat) (held : K)
    (h : list_deref c.m_keyQueue (some n) = some held) :
    UpdateKeyQueue c (some n) =
      (.ok (some (freshNode (list_unlink c.m_keyQueue (some n)))),
        { c with
          m_keyQueue :=
            list_push_front (list_unlink c.m_keyQueue (some n)) (ErasedRead.read held) }) := by
  simp [UpdateKeyQueue, list_erase, h, list_end, list_push_front, list_begin]

theorem UpdateKeyQueue_dead (c : LruCache K V) (it : Iter)
    (h : list_deref c.m_keyQueue it = none) :
    UpdateKeyQueue c it = (.error .InvalidAccess, c) := by
  simp [UpdateKeyQueue, list_erase, h]

theorem Get_hit (c : LruCache K V) (key : K) (p : V × Iter) (n : Nat) (held : K)
    (h : map_find c.m_map key = some p) (hn : p.2 = some n)
    (hd : list_deref c.m_keyQueue (some n) = some held) :
    Get c key = (.ok p.1, afterHit c key n (ErasedRead.read held)
      (fun e => (e.1, some (freshNode (list_unlink c.m_keyQueue (some n)))))) := by
  simp only [Get, h, hn, UpdateKeyQueue_eq c n held hd]
  rfl

theorem Get_dead (c : LruCache K V) (key : K) (p : V × Iter)
    (h : map_find c.m_map key = some p) (hd : list_deref c.m_keyQueue p.2 = none) :
    Get c key = (.error .InvalidAccess, c) := by
  simp only [Get, h, UpdateKeyQueue_dead c p.2 hd]

theorem Set_hit (c : LruCache K V) (key : K) (value : V) (p : V × Iter) (n : Nat) (held : K)
    (h : map_find c.m_map key = some p) (hn : p.2 = some n)
    (hd : list_deref c.m_keyQueue (some n) = some held) :
    Set c key value = (.ok (), afterHit c key n (ErasedRead.read held)
      (fun _ => (value, some (freshNode (list_unlink c.m_keyQueue (some n)))))) := by
  simp only [Set, h, hn, UpdateKeyQueue_eq c n held hd, map_modify_modify]
  rfl

theorem Set_dead (c : LruCache K V) (key : K) (value : V) (p : V × Iter)
    (h : map_find c.m_map key = some p) (hd : list_deref c.m_keyQueue p.2 = none) :
    Set c key value = (.error .InvalidAccess, c) := by
  simp only [Set, h, UpdateKeyQueue_dead c p.2 hd]

theorem map_find_afterHit (c : LruCache K V) (key : K) (n : Nat) (pushed : K)
    (F : V × Iter → V × Iter) (j : K) :
    map_find (afterHit c key n pushed F).m_map j =
      if j = key then (map_find c.m_map key).map F else map_find c.m_map j := by
  simp only [afterHit, map_find_modify]

theorem handles_afterHit (c : LruCache K V) (key : K) (n : Nat) (pushed : K)
    (F : V × Iter → V × Iter) :
    (afterHit c key n pushed F).m_keyQueue.map Prod.fst =
      freshNode (list_unlink c.m_keyQueue (some n)) ::
        (c.m_keyQueue.map Prod.fst).erase n := by
  simp [afterHit, list_push_front, list_unlink_handles]

theorem Remove_found (c : LruCache K V) (backKey : K) (p : V × Iter)
    (hb : (keys c).getLast? = some backKey) (hp : map_find c.m_map backKey = some p) :
    RemoveLeastRecentlyUsedItem c = (.ok (), evicted c backKey) := by
  have hback : list_back c.m_keyQueue = some backKey := by
    simpa [list_back, keys] using hb
  have hlen := map_remove_length c.m_map backKey (by simp [hp])
  have hcount : c.m_map.length - (map_remove c.m_map backKey).length = 1 := by omega
  simp only [RemoveLeastRecentlyUsedItem, hback, hp, map_erase, hcount]
  rfl

theorem Remove_missing (c : LruCache K V) (backKey : K)
    (hb : (keys c).getLast? = some backKey) (hp : map_find c.m_map backKey = none) :
    RemoveLeastRecentlyUsedItem c = (.error .ContentMismatch, c) := by
  have hback : list_back c.m_keyQueue = some backKey := by
    simpa [list_back, keys] using hb
  simp only [RemoveLeastRecentlyUsedItem, hback, hp]

theorem Remove_empty (c : LruCache K V) (hq : c.m_keyQueue = []) :
    RemoveLeastRecentlyUsedItem c = (.error .InvalidAccess, c) := by
  simp [RemoveLeastRecentlyUsedItem, list_back, hq]

theorem Set_full_found (c : LruCache K V) (key : K) (value : V) (backKey : K) (p : V × Iter)
    (h : map_find c.m_map key = none) (hfull : c.m_map.length = c.m_capacity)
    (hb : (keys c).getLast? = some backKey) (hp : map_find c.m_map backKey = some p) :
    Set c key value = (.ok (), inserted (evicted c backKey) key value) := by
  have hne : key ≠ backKey := by
    rintro rfl
    rw [h] at hp
    cases hp
  have hnone : map_find (evicted c backKey).m_map key = none := by
    simp only [evicted]
    rw [map_find_remove_ne _ _ _ hne]
    exact h
  simp only [Set, h, hfull, if_true, Remove_found c backKey p hb hp]
  exact InsertNewPair_eq _ key value hnone

theorem Set_full_missing (c : LruCache K V) (key : K) (value : V) (backKey : K)
    (h : map_find c.m_map key = none) (hfull : c.m_map.length = c.m_capacity)
    (hb : (keys c).getLast? = some backKey) (hp : map_find c.m_map backKey = none) :
    Set c key value = (.error .ContentMismatch, c) := by
  simp only [Set, h, hfull, if_true, Remove_missing c backKey hb hp]

theorem Set_full_empty (c : LruCache K V) (key : K) (value : V)
    (h : map_find c.m_map key = none) (hfull : c.m_map.length = c.m_capacity)
    (hq : c.m_keyQueue = []) :
    Set c key value = (.error .InvalidAccess, c) := by
  simp only [Set, h, hfull, if_true, Remove_empty c hq]

/-- The ways a `Get` ends. -/
theorem Get_cases (c : LruCache K V) (key : K) :
    (map_find c.m_map key = none ∧ Get c key = (.error .KeyNotFound, c)) ∨
    (∃ p, map_find c.m_map key = some p ∧ list_deref c.m_keyQueue p.2 = none ∧
      Get c key = (.error .InvalidAccess, c)) ∨
    (∃ p n held, map_find c.m_map key = some p ∧ p.2 = some n ∧
      list_deref c.m_keyQueue (some n) = some held ∧
      Get c key = (.ok p.1, afterHit c key n (ErasedRead.read held)
        (fun e => (e.1, some (freshNode (list_unlink c.m_keyQueue (some n))))))) := by
  cases h : map_find c.m_map key with
  | none => exact Or.inl ⟨rfl, Get_absent c key h⟩
  | some p =>
    cases hd : list_deref c.m_keyQueue p.2 with
    | none => exact Or.inr (Or.inl ⟨p, rfl, hd, Get_dead c key p h hd⟩)
    | some held =>
      cases hn : p.2 with
      | none =>
        rw [hn, list_deref_end] at hd
        cases hd
      | some n =>
        rw [hn] at hd
        exact Or.inr (Or.inr ⟨p, n, held, rfl, hn, hd, Get_hit c key p n held h hn hd⟩)

/-- The ways a `Set` ends. -/
theorem Set_cases (c : LruCache K V) (key : K) (value : V) :
    (∃ p, map_find c.m_map key = some p ∧ list_deref c.m_keyQueue p.2 = none ∧
      Set c key value = (.error .InvalidAccess, c)) ∨
    (∃ p n held, map_find c.m_map key = some p ∧ p.2 = some n ∧
      list_deref c.m_keyQueue (some n) = some held ∧
      Set c key value = (.ok (), afterHit c key n (ErasedRead.read held)
        (fun _ => (value, some (freshNode (list_unlink c.m_keyQueue (some n))))))) ∨
    (map_find c.m_map key = none ∧ c.m_map.length ≠ c.m_capacity ∧
      Set c key value = (.ok (), inserted c key value)) ∨
    (map_find c.m_map key = none ∧ c.m_map.length = c.m_capacity ∧ c.m_keyQueue = [] ∧
      Set c key value = (.error .InvalidAccess, c)) ∨
    (∃ backKey, map_find c.m_map key = none ∧ c.m_map.length = c.m_capacity ∧
      (keys c).getLast? = some backKey ∧ map_find c.m_map backKey = none ∧
      Set c key value = (.error .ContentMismatch, c)) ∨
    (∃ backKey p, map_find c.m_map key = none ∧ c.m_map.length = c.m_capacity ∧
      (keys c).getLast? = some backKey ∧ map_find c.m_map backKey = some p ∧
      Set c key value = (.ok (), inserted (evicted c backKey) key value)) := by
  cases h : map_find c.m_map key with
  | some p =>
    cases hd : list_deref c.m_keyQueue p.2 with
    | none => exact Or.inl ⟨p, rfl, hd, Set_dead c key value p h hd⟩
    | some held =>
      cases hn : p.2 with
      | none =>
        rw [hn, list_deref_end] at hd
        cases hd
      | some n =>
        rw [hn] at hd
        exact Or.inr (Or.inl ⟨p, n, held, rfl, hn, hd, Set_hit c key value p n held h hn hd⟩)
  | none =>
    by_cases hfull : c.m_map.length = c.m_capacity
    · cases hb : (keys c).getLast? with
      | none =>
        have hq : c.m_keyQueue = [] := by
          simpa [keys] using hb
        exact Or.inr (Or.inr (Or.inr (Or.inl ⟨rfl, hfull, hq,
          Set_full_empty c key value h hfull hq⟩)))
      | some backKey =>
        cases hp : map_find c.m_map backKey with
        | none =>
          exact Or.inr (Or.inr (Or.inr (Or.inr (Or.inl ⟨backKey, rfl, hfull, rfl, hp,
            Set_full_missing c key value backKey h hfull hb hp⟩))))
        | some p =>
          exact Or.inr (Or.inr (Or.inr (Or.inr (Or.inr ⟨backKey, p, rfl, hfull, rfl, hp,
            Set_full_found c key value backKey p h hfull hb hp⟩))))
    · exact Or.inr (Or.inr (Or.inl ⟨rfl, hfull, Set_new_room c key value h hfull⟩))

theorem Tracked_construct (capacity : Int) (c : LruCache K V) (hhi : capacity ≤ INT_MAX)
    (h : construct capacity = .ok c) : Tracked c := by
  obtain ⟨hpos, rfl⟩ := construct_eq_ok capacity c h
  have hcap : 0 < (capacity % 2 ^ 64).toNat := by
    unfold INT_MAX at hhi
    omega
  exact
    { cap_pos := hcap
      size_eq := by simp
      size_le := by simp
      map_nodup := by simp
      sorted := by simp
      tracked := by simp [map_find]
      inj := by simp [map_find] }

/-- The iterator of an index entry is below the handle of a node that is allocated on a part
of the queue, when this holds for the iterators into the queue and the part is not empty. -/
theorem iter_lt_fresh (c : LruCache K V) (hc : Tracked c) (j : K) (pj : V × Iter) (n1 : Nat)
    (hj : map_find c.m_map j = some pj) (hn1 : pj.2 = some n1) (q1 : KeyQueue K)
    (hsub : ∀ m ∈ q1.map Prod.fst, m ∈ c.m_keyQueue.map Prod.fst)
    (hlive : n1 ∈ c.m_keyQueue.map Prod.fst → n1 < freshNode q1)
    (hne : 2 ≤ c.m_keyQueue.length → 0 < q1.length) : n1 < freshNode q1 := by
  obtain ⟨n2, hn2, hcase⟩ := hc.tracked j pj hj
  rw [hn1] at hn2
  cases hn2
  rcases hcase with hmem | ⟨hlt, h2⟩
  · exact hlive hmem
  · obtain ⟨m, hm⟩ := exists_mem_of_length_pos q1 (hne h2)
    exact lt_trans (hlt m (hsub m hm)) (lt_freshNode q1 m hm)

theorem iter_lt_fresh_hit (c : LruCache K V) (hc : Tracked c) (key : K) (p : V × Iter) (n : Nat)
    (h : map_find c.m_map key = some p) (hn : p.2 = some n)
    (hmem : n ∈ c.m_keyQueue.map Prod.fst)
    (j : K) (pj : V × Iter) (n1 : Nat) (hjk : j ≠ key)
    (hj : map_find c.m_map j = some pj) (hn1 : pj.2 = some n1) :
    n1 < freshNode (list_unlink c.m_keyQueue (some n)) := by
  refine iter_lt_fresh c hc j pj n1 hj hn1 _ ?_ ?_ ?_
  · intro m hm
    rw [list_unlink_handles] at hm
    exact List.mem_of_mem_erase hm
  · intro hlive
    apply lt_freshNode
    rw [list_unlink_handles]
    refine (List.mem_erase_of_ne ?_).2 hlive
    intro heq
    subst heq
    exact hjk (hc.inj j key pj p n1 hj h hn1 hn hlive)
  · intro h2
    have := list_unlink_length_of_handle c.m_keyQueue n hmem
    omega

theorem iter_lt_fresh_room (c : LruCache K V) (hc : Tracked c)
    (j : K) (pj : V × Iter) (n1 : Nat)
    (hj : map_find c.m_map j = some pj) (hn1 : pj.2 = some n1) :
    n1 < freshNode c.m_keyQueue :=
  iter_lt_fresh c hc j pj n1 hj hn1 _ (fun _ hm => hm) (lt_freshNode _ n1) (fun h2 => by omega)

theorem iter_lt_fresh_evicted (c : LruCache K V) (hc : Tracked c) (backKey : K) (pb : V × Iter)
    (hp : map_find c.m_map backKey = some pb)
    (j : K) (pj : V × Iter) (n1 : Nat) (hjb : j ≠ backKey)
    (hj : map_find c.m_map j = some pj) (hn1 : pj.2 = some n1) :
    n1 < freshNode c.m_keyQueue.dropLast := by
  have h2 : 2 ≤ c.m_keyQueue.length := by
    rw [← hc.size_eq]
    exact two_le_length_of_find c.m_map j backKey pj pb hj hp hjb
  have hpos : 0 < c.m_keyQueue.dropLast.length := by
    rw [List.length_dropLast]
    omega
  refine iter_lt_fresh c hc j pj n1 hj hn1 _ ?_ ?_ (fun _ => hpos)
  · intro m hm
    exact List.mem_map.2 (by
      obtain ⟨e, he, rfl⟩ := List.mem_map.1 hm
      exact ⟨e, List.dropLast_subset _ he, rfl⟩)
  · intro hlive
    rcases mem_dropLast_or_lt _ hc.sorted n1 hlive with hl | hl
    · exact lt_freshNode _ n1 (by rw [handles_dropLast]; exact hl)
    · obtain ⟨m, hm⟩ := exists_mem_of_length_pos c.m_keyQueue.dropLast hpos
      exact lt_trans (hl m (by rw [← handles_dropLast]; exact hm)) (lt_freshNode _ m hm)

theorem Tracked_afterHit (c : LruCache K V) (hc : Tracked c) (key : K) (p : V × Iter) (n : Nat)
    (held pushed : K) (F : V × Iter → V × Iter)
    (h : map_find c.m_map key = some p) (hn : p.2 = some n)
    (hd : list_deref c.m_keyQueue (some n) = some held)
    (hF : ∀ e, (F e).2 = some (freshNode (list_unlink c.m_keyQueue (some n)))) :
    Tracked (afterHit c key n pushed F) := by
  have hmem := handle_of_list_deref c.m_keyQueue n held hd
  have hlen := list_unlink_length c.m_keyQueue n held hd
  have hlt := iter_lt_fresh_hit c hc key p n h hn hmem
  refine
    { cap_pos := hc.cap_pos
      size_eq := ?_
      size_le := ?_
      map_nodup := ?_
      sorted := ?_
      tracked := ?_
      inj := ?_ }
  · simp only [afterHit, map_modify_length, list_push_front, List.length_cons]
    rw [hlen]
    exact hc.size_eq
  · simp only [afterHit, map_modify_length]
    exact hc.size_le
  · simp only [afterHit, map_modify_keys]
    exact hc.map_nodup
  · rw [handles_afterHit, List.pairwise_cons]
    refine ⟨?_, hc.sorted.sublist (List.erase_sublist n _)⟩
    intro m hm
    apply lt_freshNode
    rw [list_unlink_handles]
    exact hm
  · intro j pj hj
    rw [map_find_afterHit] at hj
    rw [handles_afterHit]
    by_cases hjk : j = key
    · simp only [hjk, if_true, h, Option.map_some', Option.some.injEq] at hj
      subst hj
      exact ⟨_, hF p, Or.inl (List.mem_cons_self _ _)⟩
    · simp only [hjk, if_false] at hj
      obtain ⟨n1, hn1, hcase⟩ := hc.tracked j pj hj
      refine ⟨n1, hn1, ?_⟩
      rcases hcase with hlive | ⟨hbelow, h2⟩
      · left
        refine List.mem_cons_of_mem _ ((List.mem_erase_of_ne ?_).2 hlive)
        intro heq
        subst heq
        exact hjk (hc.inj j key pj p n1 hj h hn1 hn hlive)
      · right
        constructor
        · intro m hm
          rcases List.mem_cons.1 hm with rfl | hm
          · exact hlt j pj n1 hjk hj hn1
          · exact hbelow m (List.mem_of_mem_erase hm)
        · simp only [afterHit, list_push_front, List.length_cons]
          omega
  · intro k1 k2 p1 p2 n0 h1 h2 hn1 hn2 hn0
    rw [map_find_afterHit] at h1 h2
    rw [handles_afterHit] at hn0
    have hold : ∀ j pj, j ≠ key → map_find c.m_map j = some pj → pj.2 = some n0 →
        n0 ∈ c.m_keyQueue.map Prod.fst ∧
          n0 ≠ freshNode (list_unlink c.m_keyQueue (some n)) := by
      intro j pj hjk hj hjn
      have hne := Nat.ne_of_lt (hlt j pj n0 hjk hj hjn)
      rcases List.mem_cons.1 hn0 with heq | hm
      · exact absurd heq hne
      · exact ⟨List.mem_of_mem_erase hm, hne⟩
    have hnew : ∀ pj, (map_find c.m_map key).map F = some pj → pj.2 = some n0 →
        n0 = freshNode (list_unlink c.m_keyQueue (some n)) := by
      intro pj hj hjn
      simp only [h, Option.map_some', Option.some.injEq] at hj
      subst hj
      rw [hF p] at hjn
      exact (Option.some.inj hjn).symm
    by_cases hk1 : k1 = key
    · by_cases hk2 : k2 = key
      · rw [hk1, hk2]
      · simp only [hk1, if_true] at h1
        simp only [hk2, if_false] at h2
        exact absurd (hnew p1 h1 hn1) (hold k2 p2 hk2 h2 hn2).2
    · by_cases hk2 : k2 = key
      · simp only [hk1, if_false] at h1
        simp only [hk2, if_true] at h2
        exact absurd (hnew p2 h2 hn2) (hold k1 p1 hk1 h1 hn1).2
      · simp only [hk1, if_false] at h1
        simp only [hk2, if_false] at h2
        exact hc.inj k1 k2 p1 p2 n0 h1 h2 hn1 hn2 (hold k1 p1 hk1 h1 hn1).1

theorem Tracked_inserted (c : LruCache K V) (hc : Tracked c) (key : K) (value : V)
    (h : map_find c.m_map key = none) (hroom : c.m_map.length < c.m_capacity) :
    Tracked (inserted c key value) := by
  have hnotmap : key ∉ c.m_map.map Prod.fst := (map_find_eq_none_iff _ _).1 h
  have hlt := iter_lt_fresh_room c hc
  refine
    { cap_pos := hc.cap_pos
      size_eq := ?_
      size_le := ?_
      map_nodup := ?_
      sorted := ?_
      tracked := ?_
      inj := ?_ }
  · simp only [inserted, list_push_front, List.length_cons]
    rw [hc.size_eq]
  · simp only [inserted, List.length_cons]
    omega
  · simp only [inserted, List.map_cons, List.nodup_cons]
    exact ⟨hnotmap, hc.map_nodup⟩
  · simp only [inserted, list_push_front, List.map_cons, List.pairwise_cons]
    exact ⟨fun m hm => lt_freshNode _ m hm, hc.sorted⟩
  · intro j pj hj
    rw [map_find_inserted] at hj
    by_cases hjk : j = key
    · simp only [hjk, if_true, Option.some.injEq] at hj
      subst hj
      exact ⟨_, rfl, Or.inl (by simp [inserted, list_push_front])⟩
    · simp only [hjk, if_false] at hj
      obtain ⟨n1, hn1, hcase⟩ := hc.tracked j pj hj
      refine ⟨n1, hn1, ?_⟩
      rcases hcase with hlive | ⟨hbelow, h2⟩
      · left
        simp only [inserted, list_push_front, List.map_cons]
        exact List.mem_cons_of_mem _ hlive
      · right
        constructor
        · intro m hm
          simp only [inserted, list_push_front, List.map_cons] at hm
          rcases List.mem_cons.1 hm with rfl | hm
          · exact hlt j pj n1 hj hn1
          · exact hbelow m hm
        · simp only [inserted, list_push_front, List.length_cons]
          omega
  · intro k1 k2 p1 p2 n0 h1 h2 hn1 hn2 hn0
    rw [map_find_inserted] at h1 h2
    simp only [inserted, list_push_front, List.map_cons] at hn0
    have hold : ∀ j pj, j ≠ key → map_find c.m_map j = some pj → pj.2 = some n0 →
        n0 ∈ c.m_keyQueue.map Prod.fst ∧ n0 ≠ freshNode c.m_keyQueue := by
      intro j pj _ hj hjn
      have hne := Nat.ne_of_lt (hlt j pj n0 hj hjn)
      rcases List.mem_cons.1 hn0 with heq | hm
      · exact absurd heq hne
      · exact ⟨hm, hne⟩
    have hnew : ∀ pj : V × Iter, some (value, some (freshNode c.m_keyQueue)) = some pj →
        pj.2 = some n0 → n0 = freshNode c.m_keyQueue := by
      intro pj hj hjn
      simp only [Option.some.injEq] at hj
      subst hj
      exact (Option.some.inj hjn).symm
    by_cases hk1 : k1 = key
    · by_cases hk2 : k2 = key
      · rw [hk1, hk2]
      · simp only [hk1, if_true] at h1
        simp only [hk2, if_false] at h2
        exact absurd (hnew p1 h1 hn1) (hold k2 p2 hk2 h2 hn2).2
    · by_cases hk2 : k2 = key
      · simp only [hk1, if_false] at h1
        simp only [hk2, if_true] at h2
        exact absurd (hnew p2 h2 hn2) (hold k1 p1 hk1 h1 hn1).2
      · simp only [hk1, if_false] at h1
        simp only [hk2, if_false] at h2
        exact hc.inj k1 k2 p1 p2 n0 h1 h2 hn1 hn2 (hold k1 p1 hk1 h1 hn1).1

theorem map_find_evicted_inserted (c : LruCache K V) (hc : Tracked c) (key : K) (value : V)
    (backKey j : K) :
    map_find (inserted (evicted c backKey) key value).m_map j =
      if j = key then some (value, some (freshNode c.m_keyQueue.dropLast))
      else if j = backKey then none else map_find c.m_map j := by
  rw [map_find_inserted]
  by_cases hjk : j = key
  · simp only [hjk, if_true]
    rfl
  · simp only [hjk, if_false]
    exact map_find_remove c.m_map hc.map_nodup backKey j

theorem handles_evicted_inserted (c : LruCache K V) (key : K) (value : V) (backKey : K) :
    (inserted (evicted c backKey) key value).m_keyQueue.map Prod.fst =
      freshNode c.m_keyQueue.dropLast :: (c.m_keyQueue.map Prod.fst).dropLast := by
  simp only [inserted, evicted, list_push_front, list_pop_back, List.map_cons, handles_dropLast]

theorem Tracked_evicted_inserted (c : LruCache K V) (hc : Tracked c) (key : K) (value : V)
    (backKey : K) (pb : V × Iter)
    (h : map_find c.m_map key = none) (hp : map_find c.m_map backKey = some pb) :
    Tracked (inserted (evicted c backKey) key value) := by
  have hnotmap : key ∉ c.m_map.map Prod.fst := (map_find_eq_none_iff _ _).1 h
  have hlt := iter_lt_fresh_evicted c hc backKey pb hp
  have hmlen := map_remove_length c.m_map backKey (by simp [hp])
  have hqpos : 0 < c.m_keyQueue.length := by
    rw [← hc.size_eq]
    omega
  refine
    { cap_pos := hc.cap_pos
      size_eq := ?_
      size_le := ?_
      map_nodup := ?_
      sorted := ?_
      tracked := ?_
      inj := ?_ }
  · simp only [inserted, evicted, list_push_front, list_pop_back, List.length_cons,
      List.length_dropLast]
    have := hc.size_eq
    omega
  · simp only [inserted, evicted, List.length_cons]
    have := hc.size_le
    omega
  · simp only [inserted, evicted, List.map_cons, List.nodup_cons, map_remove_keys]
    exact ⟨fun hm => hnotmap (List.mem_of_mem_erase hm), hc.map_nodup.erase backKey⟩
  · rw [handles_evicted_inserted, List.pairwise_cons]
    refine ⟨?_, hc.sorted.sublist (List.dropLast_sublist _)⟩
    intro m hm
    apply lt_freshNode
    rw [handles_dropLast]
    exact hm
  · intro j pj hj
    rw [map_find_evicted_inserted c hc] at hj
    rw [handles_evicted_inserted]
    by_cases hjk : j = key
    · simp only [hjk, if_true, Option.some.injEq] at hj
      subst hj
      exact ⟨_, rfl, Or.inl (List.mem_cons_self _ _)⟩
    · by_cases hjb : j = backKey
      · rw [if_neg hjk, if_pos hjb] at hj
        cases hj
      · rw [if_neg hjk, if_neg hjb] at hj
        obtain ⟨n1, hn1, hcase⟩ := hc.tracked j pj hj
        refine ⟨n1, hn1, ?_⟩
        have h2 : 2 ≤ c.m_keyQueue.length := by
          rw [← hc.size_eq]
          exact two_le_length_of_find c.m_map j backKey pj pb hj hp hjb
        have hlen : 2 ≤ (inserted (evicted c backKey) key value).m_keyQueue.length := by
          simp only [inserted, evicted, list_push_front, list_pop_back, List.length_cons,
            List.length_dropLast]
          omega
        have hdead : (∀ m ∈ (c.m_keyQueue.map Prod.fst).dropLast, n1 < m) →
            ∀ m ∈ freshNode c.m_keyQueue.dropLast :: (c.m_keyQueue.map Prod.fst).dropLast,
              n1 < m := by
          intro hb m hm
          rcases List.mem_cons.1 hm with rfl | hm
          · exact hlt j pj n1 hjb hj hn1
          · exact hb m hm
        rcases hcase with hlive | ⟨hbelow, _⟩
        · rcases mem_dropLast_or_lt _ hc.sorted n1 hlive with hl | hl
          · exact Or.inl (List.mem_cons_of_mem _ hl)
          · exact Or.inr ⟨hdead hl, hlen⟩
        · exact Or.inr ⟨hdead (fun m hm => hbelow m (List.dropLast_subset _ hm)), hlen⟩
  · intro k1 k2 p1 p2 n0 h1 h2 hn1 hn2 hn0
    rw [map_find_evicted_inserted c hc] at h1 h2
    rw [handles_evicted_inserted] at hn0
    have hold : ∀ j pj, j ≠ key →
        (if j = backKey then none else map_find c.m_map j) = some pj → pj.2 = some n0 →
        map_find c.m_map j = some pj ∧ n0 ∈ c.m_keyQueue.map Prod.fst ∧
          n0 ≠ freshNode c.m_keyQueue.dropLast := by
      intro j pj _ hj hjn
      by_cases hjb : j = backKey
      · rw [if_pos hjb] at hj
        cases hj
      · rw [if_neg hjb] at hj
        have hne := Nat.ne_of_lt (hlt j pj n0 hjb hj hjn)
        rcases List.mem_cons.1 hn0 with heq | hm
        · exact absurd heq hne
        · exact ⟨hj, List.dropLast_subset _ hm, hne⟩
    have hnew : ∀ pj : V × Iter,
        some (value, some (freshNode c.m_keyQueue.dropLast)) = some pj →
        pj.2 = some n0 → n0 = freshNode c.m_keyQueue.dropLast := by
      intro pj hj hjn
      simp only [Option.some.injEq] at hj
      subst hj
      exact (Option.some.inj hjn).symm
    by_cases hk1 : k1 = key
    · by_cases hk2 : k2 = key
      · rw [hk1, hk2]
      · simp only [hk1, if_true] at h1
        simp only [hk2, if_false] at h2
        exact absurd (hnew p1 h1 hn1) (hold k2 p2 hk2 h2 hn2).2.2
    · by_cases hk2 : k2 = key
      · simp only [hk1, if_false] at h1
        simp only [hk2, if_true] at h2
        exact absurd (hnew p2 h2 hn2) (hold k1 p1 hk1 h1 hn1).2.2
      · simp only [hk1, if_false] at h1
        simp only [hk2, if_false] at h2
        obtain ⟨e1, hm, _⟩ := hold k1 p1 hk1 h1 hn1
        obtain ⟨e2, _, _⟩ := hold k2 p2 hk2 h2 hn2
        exact hc.inj k1 k2 p1 p2 n0 e1 e2 hn1 hn2 hm

theorem Tracked_Get (c : LruCache K V) (hc : Tracked c) (key : K) : Tracked (Get c key).2 := by
  rcases Get_cases c key with ⟨_, hg⟩ | ⟨p, _, _, hg⟩ | ⟨p, n, held, h, hn, hd, hg⟩
  · rw [hg]
    exact hc
  · rw [hg]
    exact hc
  · rw [hg]
    exact Tracked_afterHit c hc key p n held _ _ h hn hd (fun _ => rfl)

theorem Tracked_Set (c : LruCache K V) (hc : Tracked c) (key : K) (value : V) :
    Tracked (Set c key value).2 := by
  rcases Set_cases c key value with ⟨p, _, _, hs⟩ | ⟨p, n, held, h, hn, hd, hs⟩ |
    ⟨h, hroom, hs⟩ | ⟨_, _, _, hs⟩ | ⟨b, _, _, _, _, hs⟩ | ⟨b, pb, h, _, _, hp, hs⟩
  · rw [hs]
    exact hc
  · rw [hs]
    exact Tracked_afterHit c hc key p n held _ _ h hn hd (fun _ => rfl)
  · rw [hs]
    exact Tracked_inserted c hc key value h (lt_of_le_of_ne hc.size_le hroom)
  · rw [hs]
    exact hc
  · rw [hs]
    exact hc
  · rw [hs]
    exact Tracked_evicted_inserted c hc key value b pb h hp

theorem liveEntry_deref (c : LruCache K V) (key : K) (hl : liveEntry c key) :
    ∃ p n held, map_find c.m_map key = some p ∧ p.2 = some n ∧
      list_deref c.m_keyQueue (some n) = some held := by
  obtain ⟨p, n, hf, hn, hmem⟩ := hl
  obtain ⟨held, hd⟩ := list_deref_of_handle c.m_keyQueue n hmem
  exact ⟨p, n, held, hf, hn, hd⟩

theorem not_liveEntry_of_dead (c : LruCache K V) (key : K) (p : V × Iter)
    (h : map_find c.m_map key = some p) (hd : list_deref c.m_keyQueue p.2 = none) :
    ¬ liveEntry c key := by
  rintro ⟨p1, n, hf, hn, hmem⟩
  rw [h] at hf
  cases hf
  rw [hn] at hd
  exact (list_deref_eq_none_iff _ _).1 hd hmem

theorem Get_ok_of_live (c : LruCache K V) (key : K) (value : V)
    (hl : liveEntry c key) (hv : lookup c key = some value) : (Get c key).1 = .ok value := by
  obtain ⟨p, n, held, hf, hn, hd⟩ := liveEntry_deref c key hl
  rw [Get_hit c key p n held hf hn hd]
  simp only [lookup, hf, Option.map_some', Option.some.injEq] at hv
  rw [hv]

/-- An entry that designates a node of the queue after a hit on another key did so before. -/
theorem live_before_afterHit (c : LruCache K V) (hc : Tracked c) (x : K) (p : V × Iter)
    (n : Nat) (held pushed : K) (F : V × Iter → V × Iter)
    (h : map_find c.m_map x = some p) (hn : p.2 = some n)
    (hd : list_deref c.m_keyQueue (some n) = some held) (key : K) (hkx : key ≠ x)
    (hl : liveEntry (afterHit c x n pushed F) key) : liveEntry c key := by
  obtain ⟨pk, nk, hfk, hnk, hmem⟩ := hl
  rw [map_find_afterHit, if_neg hkx] at hfk
  rw [handles_afterHit] at hmem
  refine ⟨pk, nk, hfk, hnk, ?_⟩
  have hlt := iter_lt_fresh_hit c hc x p n h hn (handle_of_list_deref _ n held hd)
    key pk nk hkx hfk hnk
  rcases List.mem_cons.1 hmem with heq | hm
  · omega
  · exact List.mem_of_mem_erase hm

/-- An entry that designates a node of the queue still does so after a hit. -/
theorem live_afterHit (c : LruCache K V) (hc : Tracked c) (x : K) (p : V × Iter)
    (n : Nat) (pushed : K) (F : V × Iter → V × Iter)
    (h : map_find c.m_map x = some p) (hn : p.2 = some n)
    (hF : ∀ e, (F e).2 = some (freshNode (list_unlink c.m_keyQueue (some n))))
    (key : K) (hl : liveEntry c key) : liveEntry (afterHit c x n pushed F) key := by
  obtain ⟨pk, nk, hfk, hnk, hmem⟩ := hl
  by_cases hkx : key = x
  · subst hkx
    refine ⟨F p, _, ?_, hF p, ?_⟩
    · rw [map_find_afterHit, if_pos rfl, h]
      rfl
    · rw [handles_afterHit]
      exact List.mem_cons_self _ _
  · refine ⟨pk, nk, ?_, hnk, ?_⟩
    · rw [map_find_afterHit, if_neg hkx]
      exact hfk
    · rw [handles_afterHit]
      refine List.mem_cons_of_mem _ ((List.mem_erase_of_ne ?_).2 hmem)
      intro heq
      subst heq
      exact hkx (hc.inj key x pk p nk hfk h hnk hn hmem)

theorem live_inserted (c : LruCache K V) (x : K) (value : V) (key : K)
    (hl : key = x ∨ liveEntry c key) : liveEntry (inserted c x value) key := by
  by_cases hkx : key = x
  · subst hkx
    exact ⟨_, _, by rw [map_find_inserted, if_pos rfl], rfl,
      by simp [inserted, list_push_front]⟩
  · rcases hl with hl | ⟨pk, nk, hfk, hnk, hmem⟩
    · exact absurd hl hkx
    · exact ⟨pk, nk, by rw [map_find_inserted, if_neg hkx]; exact hfk, hnk,
        by simp [inserted, list_push_front, hmem]⟩

theorem lookup_afterHit_ne (c : LruCache K V) (x : K) (n : Nat) (pushed : K)
    (F : V × Iter → V × Iter) (key : K) (hkx : key ≠ x) :
    lookup (afterHit c x n pushed F) key = lookup c key := by
  simp only [lookup, map_find_afterHit, if_neg hkx]

theorem resident_afterHit (c : LruCache K V) (x : K) (p : V × Iter) (n : Nat) (pushed : K)
    (F : V × Iter → V × Iter) (h : map_find c.m_map x = some p) (key : K) :
    resident (afterHit c x n pushed F) key ↔ resident c key := by
  simp only [resident, map_find_afterHit]
  by_cases hkx : key = x
  · subst hkx
    simp [h]
  · simp [hkx]

/-- A call that is not a `Set` on the key: when afterwards the entry of the key designates a
node of the queue, it did so before the call and holds the value it held. -/
theorem entry_before_Get (c : LruCache K V) (hc : Tracked c) (x key : K) (value : V)
    (hl : liveEntry (Get c x).2 key) (hv : lookup (Get c x).2 key = some value) :
    liveEntry c key ∧ lookup c key = some value := by
  rcases Get_cases c x with ⟨_, hg⟩ | ⟨p, _, _, hg⟩ | ⟨p, n, held, h, hn, hd, hg⟩
  · rw [hg] at hl hv
    exact ⟨hl, hv⟩
  · rw [hg] at hl hv
    exact ⟨hl, hv⟩
  · rw [hg] at hl hv
    by_cases hkx : key = x
    · subst hkx
      refine ⟨⟨p, n, h, hn, handle_of_list_deref _ n held hd⟩, ?_⟩
      simpa [lookup, map_find_afterHit, h] using hv
    · rw [lookup_afterHit_ne _ _ _ _ _ _ hkx] at hv
      exact ⟨live_before_afterHit c hc x p n held _ _ h hn hd key hkx hl, hv⟩

theorem entry_before_Set (c : LruCache K V) (hc : Tracked c) (x : K) (w : V) (key : K)
    (value : V) (hkx : key ≠ x)
    (hl : liveEntry (Set c x w).2 key) (hv : lookup (Set c x w).2 key = some value) :
    liveEntry c key ∧ lookup c key = some value := by
  rcases Set_cases c x w with ⟨p, _, _, hs⟩ | ⟨p, n, held, h, hn, hd, hs⟩ |
    ⟨h, hroom, hs⟩ | ⟨_, _, _, hs⟩ | ⟨b, _, _, _, _, hs⟩ | ⟨b, pb, h, _, _, hp, hs⟩
  · rw [hs] at hl hv
    exact ⟨hl, hv⟩
  · rw [hs] at hl hv
    rw [lookup_afterHit_ne _ _ _ _ _ _ hkx] at hv
    exact ⟨live_before_afterHit c hc x p n held _ _ h hn hd key hkx hl, hv⟩
  · rw [hs] at hl hv
    obtain ⟨pk, nk, hfk, hnk, hmem⟩ := hl
    rw [map_find_inserted, if_neg hkx] at hfk
    simp only [lookup, map_find_inserted, if_neg hkx] at hv
    refine ⟨⟨pk, nk, hfk, hnk, ?_⟩, hv⟩
    have hlt := iter_lt_fresh_room c hc key pk nk hfk hnk
    simp only [inserted, list_push_front, List.map_cons] at hmem
    rcases List.mem_cons.1 hmem with heq | hm
    · omega
    · exact hm
  · rw [hs] at hl hv
    exact ⟨hl, hv⟩
  · rw [hs] at hl hv
    exact ⟨hl, hv⟩
  · rw [hs] at hl hv
    obtain ⟨pk, nk, hfk, hnk, hmem⟩ := hl
    rw [map_find_evicted_inserted c hc, if_neg hkx] at hfk
    simp only [lookup, map_find_evicted_inserted c hc, if_neg hkx] at hv
    by_cases hkb : key = b
    · rw [if_pos hkb] at hfk
      cases hfk
    · rw [if_neg hkb] at hfk hv
      refine ⟨⟨pk, nk, hfk, hnk, ?_⟩, hv⟩
      have hlt := iter_lt_fresh_evicted c hc b pb hp key pk nk hkb hfk hnk
      rw [handles_evicted_inserted] at hmem
      rcases List.mem_cons.1 hmem with heq | hm
      · omega
      · exact List.dropLast_subset _ hm

/-- After a `Set` on the key: when the entry of the key designates a node of the queue, it
holds the value of this `Set`. -/
theorem entry_after_Set (c : LruCache K V) (key : K) (w value : V)
    (hl : liveEntry (Set c key w).2 key) (hv : lookup (Set c key w).2 key = some value) :
    w = value := by
  rcases Set_cases c key w with ⟨p, h, hd, hs⟩ | ⟨p, n, held, h, hn, hd, hs⟩ |
    ⟨h, hroom, hs⟩ | ⟨h, _, _, hs⟩ | ⟨b, h, _, _, _, hs⟩ | ⟨b, pb, h, _, _, hp, hs⟩
  · rw [hs] at hl
    exact absurd hl (not_liveEntry_of_dead c key p h hd)
  · rw [hs] at hv
    simpa [lookup, map_find_afterHit, h] using hv
  · rw [hs] at hv
    simpa [lookup, map_find_inserted] using hv
  · rw [hs] at hv
    simp [lookup, h] at hv
  · rw [hs] at hv
    simp [lookup, h] at hv
  · rw [hs] at hv
    simpa [lookup, map_find_inserted] using hv

theorem resident_iff_mem_map (c : LruCache K V) (key : K) :
    resident c key ↔ key ∈ c.m_map.map Prod.fst := by
  have := map_find_eq_none_iff c.m_map key
  simp only [resident]
  cases hf : map_find c.m_map key with
  | none =>
    rw [hf] at this
    simp only [true_iff] at this
    simp [this]
  | some p =>
    rw [hf] at this
    simp only [false_iff, not_not, reduceCtorEq] at this
    simp [this]

theorem resident_Get (c : LruCache K V) (x key : K) :
    resident (Get c x).2 key ↔ resident c key := by
  rcases Get_cases c x with ⟨_, hg⟩ | ⟨p, _, _, hg⟩ | ⟨p, n, held, h, hn, hd, hg⟩
  · rw [hg]
  · rw [hg]
  · rw [hg]
    exact resident_afterHit c x p n _ _ h key

theorem live_Get (c : LruCache K V) (hc : Tracked c) (x key : K) (hl : liveEntry c key) :
    liveEntry (Get c x).2 key := by
  rcases Get_cases c x with ⟨_, hg⟩ | ⟨p, _, _, hg⟩ | ⟨p, n, held, h, hn, hd, hg⟩
  · rw [hg]
    exact hl
  · rw [hg]
    exact hl
  · rw [hg]
    exact live_afterHit c hc x p n _ _ h hn (fun _ => rfl) key hl

theorem capacity_Get (c : LruCache K V) (key : K) :
    (Get c key).2.m_capacity = c.m_capacity := by
  rcases Get_cases c key with ⟨_, hg⟩ | ⟨p, _, _, hg⟩ | ⟨p, n, held, h, hn, hd, hg⟩
  · rw [hg]
  · rw [hg]
  · rw [hg]
    rfl

theorem capacity_Set (c : LruCache K V) (key : K) (value : V) :
    (Set c key value).2.m_capacity = c.m_capacity := by
  rcases Set_cases c key value with ⟨p, _, _, hs⟩ | ⟨p, n, held, h, hn, hd, hs⟩ |
    ⟨h, hroom, hs⟩ | ⟨_, _, _, hs⟩ | ⟨b, _, _, _, _, hs⟩ | ⟨b, pb, h, _, _, hp, hs⟩
  · rw [hs]
  · rw [hs]
    rfl
  · rw [hs]
    rfl
  · rw [hs]
  · rw [hs]
  · rw [hs]
    rfl

end LruCache

/-! ## Histories, whatever a read through an erased iterator gives -/

section reachable_lemmas

variable {K V : Type} [DecidableEq K] [ErasedRead K]

theorem Tracked_step (c : LruCache K V) (hc : c.Tracked) (op : Op K V) :
    (step c op).Tracked := by
  cases op with
  | Get key => exact LruCache.Tracked_Get c hc key
  | Set key value => exact LruCache.Tracked_Set c hc key value

theorem Tracked_runOps (c : LruCache K V) (hc : c.Tracked) (ops : List (Op K V)) :
    (runOps c ops).Tracked := by
  induction ops generalizing c with
  | nil => exact hc
  | cons op ops ih => exact ih (step c op) (Tracked_step c hc op)

theorem Reachable.tracked {c : LruCache K V} (h : Reachable c) : c.Tracked := by
  induction h with
  | construct capacity c _ hhi hc => exact LruCache.Tracked_construct capacity c hhi hc
  | Get c key _ ih => exact LruCache.Tracked_Get c ih key
  | Set c key value _ ih => exact LruCache.Tracked_Set c ih key value

theorem capacity_step (c : LruCache K V) (op : Op K V) :
    (step c op).m_capacity = c.m_capacity := by
  cases op with
  | Get key => exact LruCache.capacity_Get c key
  | Set key value => exact LruCache.capacity_Set c key value

theorem capacity_runOps (c : LruCache K V) (ops : List (Op K V)) :
    (runOps c ops).m_capacity = c.m_capacity := by
  induction ops generalizing c with
  | nil => rfl
  | cons op ops ih =>
    show (runOps (step c op) ops).m_capacity = c.m_capacity
    rw [ih (step c op), capacity_step c op]

theorem Reachable.runOps {c : LruCache K V} (h : Reachable c) (ops : List (Op K V)) :
    Reachable (runOps c ops) := by
  induction ops generalizing c with
  | nil => exact h
  | cons op ops ih =>
    cases op with
    | Get key => exact ih (Reachable.Get c key h)
    | Set key value => exact ih (Reachable.Set c key value h)

theorem reachable_exampleEmpty : Reachable exampleEmpty :=
  Reachable.construct 2 exampleEmpty (by decide) (by decide) rfl

theorem reachable_exampleFull : Reachable exampleFull :=
  reachable_exampleEmpty.runOps _

theorem not_resident_iff (c : LruCache K V) (key : K) :
    ¬ c.resident key ↔ map_find c.m_map key = none := by
  simp [LruCache.resident]

theorem erase_eq_filter_of_nodup (l : List K) (hl : l.Nodup) (key : K) :
    l.erase key = l.filter (fun j => decide (j ≠ key)) := by
  rw [hl.erase_eq_filter]
  congr 1
  funext j
  by_cases h : j = key <;> simp [h]

theorem take_append_take (n : Nat) (a b : List K) :
    (a ++ b.take n).take n = (a ++ b).take n := by
  rw [List.take_append_eq_append_take, List.take_append_eq_append_take, List.take_take]
  congr 2
  omega

theorem mem_take_append_cons_iff (n : Nat) (a b : List K) (key : K) (ha : key ∉ a) :
    key ∈ (a ++ key :: b).take n ↔ a.length < n := by
  constructor
  · intro h
    by_contra hlt
    rw [List.take_append_of_le_length (by omega)] at h
    exact ha (List.mem_of_mem_take h)
  · intro h
    rw [List.take_append_eq_append_take]
    have : n - a.length = (n - a.length - 1) + 1 := by omega
    rw [this, List.take_succ_cons]
    simp

theorem runOps_append (c : LruCache K V) (ops1 ops2 : List (Op K V)) :
    runOps c (ops1 ++ ops2) = runOps (runOps c ops1) ops2 := by
  simp [runOps, List.foldl_append]

theorem touchLog_append (c : LruCache K V) (ops1 ops2 : List (Op K V)) :
    touchLog c (ops1 ++ ops2) = touchLog c ops1 ++ touchLog (runOps c ops1) ops2 := by
  induction ops1 generalizing c with
  | nil => rfl
  | cons op ops1 ih =>
    show touched c op :: touchLog (step c op) (ops1 ++ ops2) =
      touched c op :: (touchLog (step c op) ops1 ++ touchLog (runOps (step c op) ops1) ops2)
    rw [ih]

theorem touchLog_length (c : LruCache K V) (ops : List (Op K V)) :
    (touchLog c ops).length = ops.length := by
  induction ops generalizing c with
  | nil => rfl
  | cons op ops ih => simp [touchLog, ih]

theorem lastTouch_lt (log : List (Option K)) (key : K) (i : Nat)
    (h : lastTouch log key = some i) : i < log.length := by
  induction log generalizing i with
  | nil => simp [lastTouch] at h
  | cons t log ih =>
    simp only [lastTouch] at h
    cases hl : lastTouch log key with
    | some j =>
      rw [hl] at h
      simp only [Option.some.injEq] at h
      have := ih j hl
      simp only [List.length_cons]
      omega
    | none =>
      rw [hl] at h
      split_ifs at h
      simp only [Option.some.injEq] at h
      simp only [List.length_cons]
      omega

theorem lastTouch_append_singleton (log : List (Option K)) (t : Option K) (key : K) :
    lastTouch (log ++ [t]) key = if t = some key then some log.length else lastTouch log key := by
  induction log with
  | nil =>
    by_cases h : t = some key <;> simp [lastTouch, h]
  | cons s log ih =>
    show (match lastTouch (log ++ [t]) key with
      | some i => some (i + 1)
      | none => if s = some key then some 0 else none) =
      if t = some key then some (log.length + 1) else
        (match lastTouch log key with
        | some i => some (i + 1)
        | none => if s = some key then some 0 else none)
    rw [ih]
    by_cases h : t = some key
    · simp only [h, if_true]
    · simp only [h, if_false]

theorem comesBefore_touch (l : List K) (hnd : l.Nodup) (j k x : K) (hx : x ≠ k) (n : Nat)
    (hb : k ∈ l → comesBefore j k l) (hk : k ∈ (x :: l.erase x).take n) :
    comesBefore j k ((x :: l.erase x).take n) := by
  have hkl : k ∈ l := by
    have h1 := List.mem_of_mem_take hk
    simp only [List.mem_cons] at h1
    rcases h1 with h1 | h1
    · exact absurd h1.symm hx
    · exact List.mem_of_mem_erase h1
  obtain ⟨a, b, hl, hj⟩ := hb hkl
  have hka : k ∉ a := by
    rw [hl] at hnd
    intro hmem
    exact (List.nodup_append.1 hnd).2.2 hmem (List.mem_cons_self k b)
  have hsplit : ∃ a1 b1, x :: l.erase x = a1 ++ k :: b1 ∧ j ∈ a1 ∧ k ∉ a1 := by
    by_cases hxa : x ∈ a
    · refine ⟨x :: a.erase x, b, ?_, ?_, ?_⟩
      · rw [hl, List.erase_append_left _ hxa]
        rfl
      · by_cases hjx : j = x
        · simp [hjx]
        · simp only [List.mem_cons]
          exact Or.inr ((List.mem_erase_of_ne hjx).2 hj)
      · simp only [List.mem_cons, not_or]
        exact ⟨fun h => hx h.symm, fun h => hka (List.mem_of_mem_erase h)⟩
    · refine ⟨x :: a, b.erase x, ?_, ?_, ?_⟩
      · rw [hl, List.erase_append_right _ hxa,
          List.erase_cons_tail (by simpa using fun h : k = x => hx h.symm)]
        rfl
      · simp only [List.mem_cons]
        exact Or.inr hj
      · simp only [List.mem_cons, not_or]
        exact ⟨fun h => hx h.symm, hka⟩
  obtain ⟨a1, b1, h1, hj1, hk1⟩ := hsplit
  rw [h1] at hk ⊢
  have hlt := (mem_take_append_cons_iff n a1 b1 k hk1).1 hk
  refine ⟨a1, b1.take (n - a1.length - 1), ?_, hj1⟩
  rw [List.take_append_eq_append_take, List.take_of_length_le (Nat.le_of_lt hlt)]
  have : n - a1.length = (n - a1.length - 1) + 1 := by omega
  rw [this, List.take_succ_cons]
  simp

theorem comesBefore_of_touchedAfter (l : List K) (log : List (Option K)) (j k : K)
    (hp : l.Pairwise (touchedAfter log)) (hj : j ∈ l) (hk : k ∈ l)
    (h : touchedAfter log j k) : comesBefore j k l := by
  obtain ⟨tj, tk, htj, htk, hlt⟩ := h
  obtain ⟨a, b, hl⟩ := List.append_of_mem hk
  refine ⟨a, b, hl, ?_⟩
  rw [hl] at hj hp
  simp only [List.mem_append, List.mem_cons] at hj
  rcases hj with hj | rfl | hj
  · exact hj
  · rw [htj] at htk
    simp only [Option.some.injEq] at htk
    omega
  · have hkb := (List.pairwise_cons.1 (List.pairwise_append.1 hp).2.1).1 j hj
    obtain ⟨tk1, tj1, h1, h2, h3⟩ := hkb
    rw [htk] at h1
    rw [htj] at h2
    simp only [Option.some.injEq] at h1 h2
    omega

theorem resident_iff_lookup (c : LruCache K V) (key : K) :
    c.resident key ↔ ∃ v, c.lookup key = some v := by
  simp only [LruCache.resident, LruCache.lookup, Option.map_eq_some']
  constructor
  · intro h
    obtain ⟨p, hp⟩ := Option.isSome_iff_exists.1 h
    exact ⟨p.1, p, hp, rfl⟩
  · rintro ⟨v, p, hp, _⟩
    simp [hp]

theorem lastSet_eq_none (ops : List (Op K V)) (key : K) (h : ∀ w, Op.Set key w ∉ ops) :
    lastSet ops key = none := by
  induction ops with
  | nil => rfl
  | cons op ops ih =>
    have h1 : ∀ w, Op.Set key w ∉ ops := fun w hmem => h w (List.mem_cons_of_mem _ hmem)
    simp only [lastSet, ih h1]
    cases op with
    | Get x => rfl
    | Set x v =>
      have hx : x ≠ key := by
        rintro rfl
        exact h v (List.mem_cons_self _ _)
      simp [hx]

theorem lastSet_of_split (p1 p2 : List (Op K V)) (key : K) (value : V)
    (h : ∀ w, Op.Set key w ∉ p2) : lastSet (p1 ++ Op.Set key value :: p2) key = some value := by
  induction p1 with
  | nil => simp [lastSet, lastSet_eq_none p2 key h]
  | cons op p1 ih =>
    show (match lastSet (p1 ++ Op.Set key value :: p2) key with
      | some v => some v
      | none =>
        match op with
        | .Set k v => if k = key then some v else none
        | .Get _ => none) = some value
    rw [ih]

theorem length_le_dedup_of_subset (l1 l2 : List K) (hnd : l1.Nodup) (hsub : l1 ⊆ l2) :
    l1.length ≤ l2.dedup.length :=
  (List.subperm_of_subset hnd (fun _ ha => List.mem_dedup.2 (hsub ha))).length_le

theorem dedup_length_mono (l1 l2 : List K) (hsub : l1 ⊆ l2) :
    l1.dedup.length ≤ l2.dedup.length :=
  length_le_dedup_of_subset _ _ (List.nodup_dedup l1)
    (fun _ ha => hsub (List.mem_dedup.1 ha))

theorem setKeys_append (ops1 ops2 : List (Op K V)) :
    setKeys (ops1 ++ ops2) = setKeys ops1 ++ setKeys ops2 := by
  simp [setKeys]

theorem setKeys_take_subset (ops : List (Op K V)) (n : Nat) :
    setKeys (ops.take n) ⊆ setKeys ops :=
  ((List.take_sublist n ops).filterMap setKey).subset

theorem refFind_eq_none_iff (l : List (K × V)) (key : K) :
    refFind l key = none ↔ key ∉ l.map Prod.fst := by
  induction l with
  | nil => simp [refFind]
  | cons e l ih =>
    obtain ⟨k, v⟩ := e
    by_cases h : k = key
    · simp [refFind, h]
    · simp [refFind, h, ih, Ne.symm h]

theorem refFind_mem (l : List (K × V)) (key : K) (v : V) (h : refFind l key = some v) :
    (key, v) ∈ l := by
  induction l with
  | nil => simp [refFind] at h
  | cons e l ih =>
    obtain ⟨k, v0⟩ := e
    by_cases hk : k = key
    · simp only [refFind, hk, if_true, Option.some.injEq] at h
      simp [hk, h]
    · simp only [refFind, hk, if_false] at h
      exact List.mem_cons_of_mem _ (ih h)

theorem map_fst_filter_ne (l : List (K × V)) (key : K) :
    (l.filter (fun e => decide (e.1 ≠ key))).map Prod.fst =
      (l.map Prod.fst).filter (fun j => decide (j ≠ key)) := by
  induction l with
  | nil => rfl
  | cons e l ih =>
    by_cases h : e.1 = key
    · rw [List.filter_cons_of_neg (by simpa using h), List.map_cons,
        List.filter_cons_of_neg (by simpa using h), ih]
    · rw [List.filter_cons_of_pos (by simpa using h), List.map_cons, List.map_cons,
        List.filter_cons_of_pos (by simpa using h), ih]

/-- The history of a live entry.  Take a cache that starts empty and a sequence of calls after
which the entry of `key` designates a node of the queue and holds `value`.  Then the sequence
has a `Set(key, value)` with no `Set` on `key` after it, and the key is resident in every state
from that `Set` on. -/
theorem live_history (c0 : LruCache K V) (hc0 : c0.Tracked) (hempty : c0.m_map = [])
    (pre : List (Op K V)) (key : K) (value : V)
    (hl : (runOps c0 pre).liveEntry key)
    (h : (runOps c0 pre).lookup key = some value) :
    ∃ p1 p2, pre = p1 ++ Op.Set key value :: p2 ∧ (∀ w, Op.Set key w ∉ p2) ∧
      ∀ n, (runOps c0 (p1 ++ Op.Set key value :: p2.take n)).resident key := by
  induction pre using List.reverseRecOn generalizing value with
  | nil =>
    simp [runOps, LruCache.lookup, hempty, map_find] at h
  | append_singleton pre op ih =>
    have hc := Tracked_runOps c0 hc0 pre
    have hnow : (runOps c0 (pre ++ [op])).resident key :=
      (resident_iff_lookup _ key).2 ⟨value, h⟩
    have extend : ∀ p1 p2, pre = p1 ++ Op.Set key value :: p2 → (∀ w, Op.Set key w ∉ p2) →
        (∀ w, Op.Set key w ≠ op) →
        (∀ n, (runOps c0 (p1 ++ Op.Set key value :: p2.take n)).resident key) →
        ∃ p1 p2, pre ++ [op] = p1 ++ Op.Set key value :: p2 ∧ (∀ w, Op.Set key w ∉ p2) ∧
          ∀ n, (runOps c0 (p1 ++ Op.Set key value :: p2.take n)).resident key := by
      intro p1 p2 hpre hno hop hall
      refine ⟨p1, p2 ++ [op], by rw [hpre]; simp, ?_, ?_⟩
      · intro w hmem
        simp only [List.mem_append, List.mem_singleton] at hmem
        rcases hmem with hmem | hmem
        · exact hno w hmem
        · exact hop w hmem
      · intro n
        by_cases hn : n ≤ p2.length
        · rw [List.take_append_of_le_length hn]
          exact hall n
        · rw [List.take_of_length_le (by simp; omega)]
          have : p1 ++ Op.Set key value :: (p2 ++ [op]) = pre ++ [op] := by
            rw [hpre]
            simp
          rw [this]
          exact hnow
    rw [runOps_append] at h hl
    cases op with
    | Get x =>
      obtain ⟨hl1, h1⟩ := LruCache.entry_before_Get _ hc x key value hl h
      obtain ⟨p1, p2, hpre, hno, hall⟩ := ih value hl1 h1
      exact extend p1 p2 hpre hno (fun w hw => by cases hw) hall
    | Set x w =>
      by_cases hx : key = x
      · subst hx
        have hvw : w = value := LruCache.entry_after_Set _ key w value hl h
        subst hvw
        refine ⟨pre, [], rfl, fun w1 => List.not_mem_nil (Op.Set key w1), ?_⟩
        intro n
        rw [List.take_nil]
        exact hnow
      · obtain ⟨hl1, h1⟩ := LruCache.entry_before_Set _ hc x w key value hx hl h
        obtain ⟨p1, p2, hpre, hno, hall⟩ := ih value hl1 h1
        refine extend p1 p2 hpre hno (fun w1 hw => ?_) hall
        simp only [Op.Set.injEq] at hw
        exact hx hw.1

/-- While the `Set` calls of a history use at most `capacity` distinct keys, the resident keys
are the keys that were set, and every entry designates a node of the queue. -/
theorem residents_eq_setKeys (c0 : LruCache K V) (hc0 : c0.Tracked) (hempty : c0.m_map = [])
    (ops : List (Op K V)) (hfew : (setKeys ops).dedup.length ≤ c0.m_capacity) :
    ∀ k, ((runOps c0 ops).resident k ↔ k ∈ setKeys ops) ∧
      ((runOps c0 ops).resident k → (runOps c0 ops).liveEntry k) := by
  induction ops using List.reverseRecOn with
  | nil =>
    intro k
    simp [runOps, LruCache.resident, hempty, map_find, setKeys]
  | append_singleton pre op ih =>
    have hc := Tracked_runOps c0 hc0 pre
    have hcap := capacity_runOps c0 pre
    have hpre : (setKeys pre).dedup.length ≤ c0.m_capacity := by
      refine le_trans (dedup_length_mono _ _ ?_) hfew
      rw [setKeys_append]
      exact List.subset_append_left _ _
    have ih1 := ih hpre
    intro k
    rw [runOps_append, setKeys_append]
    cases op with
    | Get x =>
      show (((runOps c0 pre).Get x).2.resident k ↔ _) ∧
        (((runOps c0 pre).Get x).2.resident k → ((runOps c0 pre).Get x).2.liveEntry k)
      rw [LruCache.resident_Get]
      refine ⟨?_, fun hres => LruCache.live_Get _ hc x k ((ih1 k).2 hres)⟩
      rw [(ih1 k).1]
      simp [setKeys, setKey]
    | Set x w =>
      show (((runOps c0 pre).Set x w).2.resident k ↔ _) ∧
        (((runOps c0 pre).Set x w).2.resident k → ((runOps c0 pre).Set x w).2.liveEntry k)
      have hsx : setKeys [Op.Set x w] = [x] := rfl
      rw [hsx]
      by_cases hres : (runOps c0 pre).resident x
      · obtain ⟨p, n, held, hf, hn, hd⟩ :=
          LruCache.liveEntry_deref _ x ((ih1 x).2 hres)
        rw [LruCache.Set_hit _ x w p n held hf hn hd]
        rw [LruCache.resident_afterHit _ x p n _ _ hf k]
        refine ⟨?_, fun hk =>
          LruCache.live_afterHit _ hc x p n _ _ hf hn (fun _ => rfl) k ((ih1 k).2 hk)⟩
        rw [(ih1 k).1, List.mem_append, List.mem_singleton]
        constructor
        · exact Or.inl
        · rintro (hk | rfl)
          · exact hk
          · exact (ih1 k).1.1 hres
      · have hnone := (not_resident_iff _ x).1 hres
        have hnd : (x :: (runOps c0 pre).m_map.map Prod.fst).Nodup := by
          rw [List.nodup_cons]
          exact ⟨fun hm => hres ((LruCache.resident_iff_mem_map _ x).2 hm), hc.map_nodup⟩
        have hsub : x :: (runOps c0 pre).m_map.map Prod.fst ⊆
            setKeys (pre ++ [Op.Set x w]) := by
          intro j hj
          rw [setKeys_append]
          rcases List.mem_cons.1 hj with rfl | hj
          · simp [setKeys, setKey]
          · exact List.mem_append_left _
              ((ih1 j).1.1 ((LruCache.resident_iff_mem_map _ j).2 hj))
        have hlen := le_trans (length_le_dedup_of_subset _ _ hnd hsub) hfew
        have hroom : (runOps c0 pre).m_map.length ≠ (runOps c0 pre).m_capacity := by
          rw [hcap]
          simp only [List.length_cons, List.length_map] at hlen
          omega
        rw [LruCache.Set_new_room _ x w hnone hroom]
        have hri : ∀ j, ((runOps c0 pre).inserted x w).resident j ↔
            j = x ∨ (runOps c0 pre).resident j := by
          intro j
          simp only [LruCache.resident, LruCache.map_find_inserted]
          by_cases hj : j = x
          · simp [hj]
          · simp [hj]
        refine ⟨?_, fun hk => LruCache.live_inserted _ x w k ?_⟩
        · rw [hri, (ih1 k).1, List.mem_append, List.mem_singleton]
          exact or_comm
        · rcases (hri k).1 hk with hk | hk
          · exact Or.inl hk
          · exact Or.inr ((ih1 k).2 hk)

end reachable_lemmas

/-! ## Key types that survive the read through the erased iterator

For key types with `SurvivingRead` the member functions maintain `WF`, and the cache behaves as
an LRU cache. -/

namespace LruCache

variable {K V : Type} [DecidableEq K] [ErasedRead K] [SurvivingRead K]

theorem UpdateKeyQueue_surviving (c : LruCache K V) (n : Nat) (key : K)
    (h : list_deref c.m_keyQueue (some n) = some key) :
    UpdateKeyQueue c (some n) =
      (.ok (some (freshNode (list_unlink c.m_keyQueue (some n)))),
        { c with m_keyQueue := list_push_front (list_unlink c.m_keyQueue (some n)) key }) := by
  rw [UpdateKeyQueue_eq c n key h, SurvivingRead.read_eq]

theorem WF_construct (capacity : Int) (c : LruCache K V) (hhi : capacity ≤ INT_MAX)
    (h : construct capacity = .ok c) : WF c := by
  obtain ⟨hpos, rfl⟩ := construct_eq_ok capacity c h
  have hcap : 0 < (capacity % 2 ^ 64).toNat := by
    unfold INT_MAX at hhi
    omega
  exact
    { cap_pos := hcap
      map_nodup := by simp
      node_nodup := by simp
      key_nodup := by simp
      map_to_queue := by simp [map_find]
      queue_to_map := by simp
      size_eq := by simp
      size_le := by simp }

theorem resident_node (c : LruCache K V) (hc : WF c) (key : K) (p : V × Iter)
    (h : map_find c.m_map key = some p) :
    ∃ n, p.2 = some n ∧ list_deref c.m_keyQueue (some n) = some key := by
  obtain ⟨n, hn, hmem⟩ := hc.map_to_queue key p h
  exact ⟨n, hn, list_deref_of_mem _ _ _ hc.node_nodup hmem⟩

theorem keys_promoted (c : LruCache K V) (hc : WF c) (key : K) (n : Nat)
    (F : V × Iter → V × Iter) (hn : list_deref c.m_keyQueue (some n) = some key) :
    keys (promoted c key n F) = key :: (keys c).erase key := by
  simp only [keys, promoted, list_push_front, List.map_cons]
  rw [list_unlink_keys _ _ _ hn hc.key_nodup]

theorem map_find_promoted (c : LruCache K V) (key : K) (n : Nat) (F : V × Iter → V × Iter)
    (j : K) :
    map_find (promoted c key n F).m_map j =
      if j = key then (map_find c.m_map key).map F else map_find c.m_map j := by
  simp only [promoted, map_find_modify]

theorem WF_promoted (c : LruCache K V) (hc : WF c) (key : K) (n : Nat)
    (F : V × Iter → V × Iter) (hn : list_deref c.m_keyQueue (some n) = some key)
    (hF : ∀ p, (F p).2 = some (freshNode (list_unlink c.m_keyQueue (some n)))) :
    WF (promoted c key n F) := by
  have hkeys := keys_promoted c hc key n F hn
  have hsub := list_unlink_sublist c.m_keyQueue (some n)
  refine
    { cap_pos := hc.cap_pos
      map_nodup := ?_
      node_nodup := ?_
      key_nodup := ?_
      map_to_queue := ?_
      queue_to_map := ?_
      size_eq := ?_
      size_le := ?_ }
  · simp only [promoted, map_modify_keys]
    exact hc.map_nodup
  · simp only [promoted, list_push_front, List.map_cons, List.nodup_cons]
    exact ⟨freshNode_not_mem _, (hsub.map Prod.fst).nodup hc.node_nodup⟩
  · have hk : (keys c).Nodup := hc.key_nodup
    show (keys (promoted c key n F)).Nodup
    rw [hkeys, List.nodup_cons]
    exact ⟨fun h => ((List.Nodup.mem_erase_iff hk).1 h).1 rfl, hk.erase key⟩
  · intro j p hj
    rw [map_find_promoted] at hj
    by_cases hjk : j = key
    · subst hjk
      simp only [if_true, Option.map_eq_some'] at hj
      obtain ⟨p0, _, rfl⟩ := hj
      exact ⟨_, hF p0, by simp [promoted, list_push_front]⟩
    · simp only [hjk, if_false] at hj
      obtain ⟨n1, hn1, hmem⟩ := hc.map_to_queue j p hj
      refine ⟨n1, hn1, ?_⟩
      simp only [promoted, list_push_front, List.mem_cons]
      exact Or.inr (mem_list_unlink _ _ _ _ _ hn hjk hmem)
  · intro n1 j hmem
    rw [map_find_promoted]
    have hkey : (map_find c.m_map key).isSome = true :=
      hc.queue_to_map n key (list_deref_mem _ _ _ hn)
    by_cases hjk : j = key
    · simp only [hjk, if_true, Option.isSome_map']
      exact hkey
    · simp only [hjk, if_false]
      simp only [promoted, list_push_front, List.mem_cons, Prod.mk.injEq] at hmem
      rcases hmem with ⟨_, h⟩ | hmem
      · exact absurd h hjk
      · exact hc.queue_to_map n1 j (hsub.subset hmem)
  · simp only [promoted, map_modify_length, list_push_front, List.length_cons]
    rw [list_unlink_length _ _ _ hn]
    exact hc.size_eq
  · simp only [promoted, map_modify_length]
    exact hc.size_le

theorem Get_resident (c : LruCache K V) (hc : WF c) (key : K) (p : V × Iter)
    (h : map_find c.m_map key = some p) :
    ∃ n, list_deref c.m_keyQueue (some n) = some key ∧
      Get c key = (.ok p.1, promoted c key n
        (fun e => (e.1, some (freshNode (list_unlink c.m_keyQueue (some n)))))) := by
  obtain ⟨n, hn, hd⟩ := resident_node c hc key p h
  refine ⟨n, hd, ?_⟩
  simp only [Get, h, hn, UpdateKeyQueue_surviving c n key hd]
  rfl

theorem Set_resident (c : LruCache K V) (hc : WF c) (key : K) (value : V) (p : V × Iter)
    (h : map_find c.m_map key = some p) :
    ∃ n, list_deref c.m_keyQueue (some n) = some key ∧
      Set c key value = (.ok (), promoted c key n
        (fun _ => (value, some (freshNode (list_unlink c.m_keyQueue (some n)))))) := by
  obtain ⟨n, hn, hd⟩ := resident_node c hc key p h
  refine ⟨n, hd, ?_⟩
  simp only [Set, h, hn, UpdateKeyQueue_surviving c n key hd, map_modify_modify]
  rfl

theorem back_not_mem_dropLast (c : LruCache K V) (hc : WF c) (backKey : K)
    (hb : (keys c).getLast? = some backKey) : backKey ∉ (keys c).dropLast := by
  have hk : (keys c).Nodup := hc.key_nodup
  have hsplit := List.dropLast_append_getLast? backKey hb
  rw [← hsplit] at hk
  intro hmem
  exact (List.nodup_append.1 hk).2.2 hmem (List.mem_singleton_self backKey)

theorem map_find_evicted (c : LruCache K V) (hc : WF c) (backKey j : K) :
    map_find (evicted c backKey).m_map j =
      if j = backKey then none else map_find c.m_map j := by
  by_cases h : j = backKey
  · subst h
    simp only [evicted, if_true]
    exact map_find_remove_self _ _ hc.map_nodup
  · simp only [evicted, h, if_false]
    exact map_find_remove_ne _ _ _ h

theorem WF_evicted (c : LruCache K V) (hc : WF c) (backKey : K)
    (hb : (keys c).getLast? = some backKey) :
    WF (evicted c backKey) ∧ (evicted c backKey).m_map.length + 1 = c.m_map.length := by
  obtain ⟨nb, hq⟩ := back_node c backKey hb
  have hnot := back_not_mem_dropLast c hc backKey hb
  have hres : (map_find c.m_map backKey).isSome = true :=
    hc.queue_to_map nb backKey (by rw [hq]; simp)
  have hlen := map_remove_length c.m_map backKey hres
  have hqlen : c.m_keyQueue.dropLast.length + 1 = c.m_keyQueue.length := by
    have := congrArg List.length hq
    simp only [List.length_append, List.length_singleton] at this
    omega
  refine ⟨?_, by simpa [evicted] using hlen⟩
  refine
    { cap_pos := hc.cap_pos
      map_nodup := ?_
      node_nodup := ?_
      key_nodup := ?_
      map_to_queue := ?_
      queue_to_map := ?_
      size_eq := ?_
      size_le := ?_ }
  · simp only [evicted, map_remove_keys]
    exact hc.map_nodup.erase backKey
  · simp only [evicted, list_pop_back]
    exact ((List.dropLast_sublist _).map Prod.fst).nodup hc.node_nodup
  · simp only [evicted, list_pop_back]
    exact ((List.dropLast_sublist _).map Prod.snd).nodup hc.key_nodup
  · intro j p hj
    rw [map_find_evicted c hc] at hj
    by_cases hjb : j = backKey
    · simp [hjb] at hj
    · simp only [hjb, if_false] at hj
      obtain ⟨n1, hn1, hmem⟩ := hc.map_to_queue j p hj
      refine ⟨n1, hn1, ?_⟩
      rw [hq] at hmem
      simp only [List.mem_append, List.mem_singleton, Prod.mk.injEq] at hmem
      rcases hmem with hmem | ⟨_, h⟩
      · simpa [evicted, list_pop_back] using hmem
      · exact absurd h hjb
  · intro n1 j hmem
    simp only [evicted, list_pop_back] at hmem
    have hjb : j ≠ backKey := by
      rintro rfl
      apply hnot
      simp only [keys, ← List.map_dropLast]
      exact List.mem_map_of_mem Prod.snd hmem
    rw [map_find_evicted c hc]
    simp only [hjb, if_false]
    exact hc.queue_to_map n1 j (List.dropLast_subset _ hmem)
  · simp only [evicted, list_pop_back]
    have := hc.size_eq
    omega
  · simp only [evicted]
    have := hc.size_le
    omega

theorem Remove_eq (c : LruCache K V) (hc : WF c) (hne : c.m_map ≠ []) :
    ∃ backKey, (keys c).getLast? = some backKey ∧
      RemoveLeastRecentlyUsedItem c = (.ok (), evicted c backKey) := by
  have hqne : c.m_keyQueue ≠ [] := by
    intro h
    apply hne
    have := hc.size_eq
    rw [h] at this
    exact List.length_eq_zero.1 this
  obtain ⟨e, he⟩ := Option.isSome_iff_exists.1 (List.getLast?_isSome.2 hqne)
  have hb : (keys c).getLast? = some e.2 := by simp [keys, he]
  obtain ⟨hwf, hlen⟩ := WF_evicted c hc e.2 hb
  obtain ⟨nb, hq⟩ := back_node c e.2 hb
  have hres : (map_find c.m_map e.2).isSome = true :=
    hc.queue_to_map nb e.2 (by rw [hq]; simp)
  obtain ⟨p, hp⟩ := Option.isSome_iff_exists.1 hres
  refine ⟨e.2, hb, ?_⟩
  have hcount : c.m_map.length - (map_remove c.m_map e.2).length = 1 := by
    simp only [evicted] at hlen
    omega
  simp only [RemoveLeastRecentlyUsedItem, list_back, he, Option.map_some', hp, map_erase, hcount]
  rfl

theorem WF_inserted (c : LruCache K V) (hc : WF c) (key : K) (value : V)
    (h : map_find c.m_map key = none) (hroom : c.m_map.length < c.m_capacity) :
    WF (inserted c key value) := by
  have hnotmap : key ∉ c.m_map.map Prod.fst := (map_find_eq_none_iff _ _).1 h
  refine
    { cap_pos := hc.cap_pos
      map_nodup := ?_
      node_nodup := ?_
      key_nodup := ?_
      map_to_queue := ?_
      queue_to_map := ?_
      size_eq := ?_
      size_le := ?_ }
  · simp only [inserted, List.map_cons, List.nodup_cons]
    exact ⟨hnotmap, hc.map_nodup⟩
  · simp only [inserted, list_push_front, List.map_cons, List.nodup_cons]
    exact ⟨freshNode_not_mem _, hc.node_nodup⟩
  · simp only [inserted, list_push_front, List.map_cons, List.nodup_cons]
    refine ⟨?_, hc.key_nodup⟩
    intro hmem
    obtain ⟨e, he, hek⟩ := List.mem_map.1 hmem
    have := hc.queue_to_map e.1 key (by rw [← hek]; exact he)
    rw [h] at this
    simp at this
  · intro j p hj
    rw [map_find_inserted] at hj
    by_cases hjk : j = key
    · subst hjk
      simp only [if_true, Option.some.injEq] at hj
      subst hj
      exact ⟨_, rfl, by simp [inserted, list_push_front]⟩
    · simp only [hjk, if_false] at hj
      obtain ⟨n1, hn1, hmem⟩ := hc.map_to_queue j p hj
      exact ⟨n1, hn1, by simp [inserted, list_push_front, hmem]⟩
  · intro n1 j hmem
    rw [map_find_inserted]
    by_cases hjk : j = key
    · simp [hjk]
    · simp only [hjk, if_false]
      simp only [inserted, list_push_front, List.mem_cons, Prod.mk.injEq] at hmem
      rcases hmem with ⟨_, h1⟩ | hmem
      · exact absurd h1 hjk
      · exact hc.queue_to_map n1 j hmem
  · simp only [inserted, list_push_front, List.length_cons]
    rw [hc.size_eq]
  · simp only [inserted, List.length_cons]
    omega

theorem Set_new_full (c : LruCache K V) (hc : WF c) (key : K) (value : V)
    (h : map_find c.m_map key = none) (hfull : c.m_map.length = c.m_capacity) :
    ∃ backKey, (keys c).getLast? = some backKey ∧
      Set c key value = (.ok (), inserted (evicted c backKey) key value) := by
  have hne : c.m_map ≠ [] := by
    intro h0
    have := hc.cap_pos
    rw [h0] at hfull
    simp at hfull
    omega
  obtain ⟨backKey, hb, hrem⟩ := Remove_eq c hc hne
  refine ⟨backKey, hb, ?_⟩
  have hnone : map_find (evicted c backKey).m_map key = none := by
    rw [map_find_evicted c hc]
    split_ifs
    · rfl
    · exact h
  simp only [Set, h, hfull, if_true, hrem]
  exact InsertNewPair_eq _ key value hnone

theorem resident_iff_mem_keys (c : LruCache K V) (hc : WF c) (key : K) :
    resident c key ↔ key ∈ keys c := by
  constructor
  · intro h
    obtain ⟨p, hp⟩ := Option.isSome_iff_exists.1 h
    obtain ⟨n, _, hmem⟩ := hc.map_to_queue key p hp
    exact List.mem_map_of_mem Prod.snd hmem
  · intro h
    obtain ⟨e, he, hek⟩ := List.mem_map.1 h
    exact hc.queue_to_map e.1 key (by rw [← hek]; exact he)

theorem keys_length (c : LruCache K V) (hc : WF c) : (keys c).length = c.m_map.length := by
  simp only [keys, List.length_map]
  exact hc.size_eq.symm

theorem WF_Get (c : LruCache K V) (hc : WF c) (key : K) : WF (Get c key).2 := by
  cases h : map_find c.m_map key with
  | none =>
    rw [Get_absent c key h]
    exact hc
  | some p =>
    obtain ⟨n, hn, hget⟩ := Get_resident c hc key p h
    rw [hget]
    exact WF_promoted c hc key n _ hn (fun _ => rfl)

theorem WF_Set (c : LruCache K V) (hc : WF c) (key : K) (value : V) :
    WF (Set c key value).2 := by
  cases h : map_find c.m_map key with
  | some p =>
    obtain ⟨n, hn, hset⟩ := Set_resident c hc key value p h
    rw [hset]
    exact WF_promoted c hc key n _ hn (fun _ => rfl)
  | none =>
    by_cases hfull : c.m_map.length = c.m_capacity
    · obtain ⟨backKey, hb, hset⟩ := Set_new_full c hc key value h hfull
      obtain ⟨hwf, hlen⟩ := WF_evicted c hc backKey hb
      rw [hset]
      refine WF_inserted _ hwf key value ?_ ?_
      · rw [map_find_evicted c hc]
        split_ifs
        · rfl
        · exact h
      · have : (evicted c backKey).m_capacity = c.m_capacity := rfl
        omega
    · rw [Set_new_room c key value h hfull]
      exact WF_inserted c hc key value h (lt_of_le_of_ne hc.size_le hfull)

end LruCache

section surviving_lemmas

variable {K V : Type} [DecidableEq K] [ErasedRead K] [SurvivingRead K]

theorem Reachable.wf {c : LruCache K V} (h : Reachable c) : c.WF := by
  induction h with
  | construct capacity c _ hhi hc => exact LruCache.WF_construct capacity c hhi hc
  | Get c key _ ih => exact LruCache.WF_Get c ih key
  | Set c key value _ ih => exact LruCache.WF_Set c ih key value

theorem Set_ok_and_stored (c : LruCache K V) (hc : c.WF) (key : K) (value : V) :
    (c.Set key value).1 = .ok () ∧ (c.Set key value).2.lookup key = some value := by
  cases h : map_find c.m_map key with
  | some p =>
    obtain ⟨n, hn, hset⟩ := LruCache.Set_resident c hc key value p h
    rw [hset]
    refine ⟨rfl, ?_⟩
    simp [LruCache.lookup, LruCache.map_find_promoted, h]
  | none =>
    by_cases hfull : c.m_map.length = c.m_capacity
    · obtain ⟨backKey, hb, hset⟩ := LruCache.Set_new_full c hc key value h hfull
      rw [hset]
      refine ⟨rfl, ?_⟩
      simp [LruCache.lookup, LruCache.map_find_inserted]
    · rw [LruCache.Set_new_room c key value h hfull]
      refine ⟨rfl, ?_⟩
      simp [LruCache.lookup, LruCache.map_find_inserted]

theorem Get_ok_of_lookup (c : LruCache K V) (hc : c.WF) (key : K) (value : V)
    (h : c.lookup key = some value) : (c.Get key).1 = .ok value := by
  simp only [LruCache.lookup, Option.map_eq_some'] at h
  obtain ⟨p, hp, rfl⟩ := h
  obtain ⟨n, _, hget⟩ := LruCache.Get_resident c hc key p hp
  rw [hget]

theorem keys_Set (c : LruCache K V) (hc : c.WF) (key : K) (value : V) :
    (c.Set key value).2.keys = (key :: c.keys.erase key).take c.m_capacity := by
  have hlen := LruCache.keys_length c hc
  have hle := hc.size_le
  cases h : map_find c.m_map key with
  | some p =>
    obtain ⟨n, hn, hset⟩ := LruCache.Set_resident c hc key value p h
    have hmem : key ∈ c.keys :=
      (LruCache.resident_iff_mem_keys c hc key).1 (by simp [LruCache.resident, h])
    have hpos : 0 < c.keys.length := List.length_pos_of_mem hmem
    rw [hset, LruCache.keys_promoted c hc key n _ hn, List.take_of_length_le]
    simp only [List.length_cons, List.length_erase_of_mem hmem]
    omega
  | none =>
    have hnot : key ∉ c.keys := fun hmem =>
      (not_resident_iff c key).2 h ((LruCache.resident_iff_mem_keys c hc key).2 hmem)
    rw [List.erase_of_not_mem hnot]
    by_cases hfull : c.m_map.length = c.m_capacity
    · obtain ⟨backKey, hb, hset⟩ := LruCache.Set_new_full c hc key value h hfull
      have hpos := hc.cap_pos
      rw [hset, LruCache.keys_inserted, LruCache.keys_evicted, List.take_cons hpos,
        List.dropLast_eq_take, hlen, hfull]
    · rw [LruCache.Set_new_room c key value h hfull, LruCache.keys_inserted,
        List.take_of_length_le]
      simp only [List.length_cons]
      omega

theorem touched_Get (c : LruCache K V) (hc : c.WF) (key : K) :
    touched c (.Get key) = if c.resident key then some key else none := by
  cases h : map_find c.m_map key with
  | none => simp [touched, LruCache.Get_absent c key h, LruCache.resident, h]
  | some p =>
    obtain ⟨n, _, hget⟩ := LruCache.Get_resident c hc key p h
    simp [touched, hget, LruCache.resident, h]

theorem step_of_untouched (c : LruCache K V) (hc : c.WF) (op : Op K V)
    (h : touched c op = none) : step c op = c := by
  cases op with
  | Set key value => simp [touched] at h
  | Get key =>
    rw [touched_Get c hc] at h
    have hnot : ¬ c.resident key := by
      intro hres
      simp [hres] at h
    simp only [step, LruCache.Get_absent c key ((not_resident_iff c key).1 hnot)]

theorem keys_step (c : LruCache K V) (hc : c.WF) (op : Op K V) (key : K)
    (h : touched c op = some key) :
    (step c op).keys = (key :: c.keys.erase key).take c.m_capacity := by
  cases op with
  | Set k value =>
    simp only [touched, Option.some.injEq] at h
    subst h
    exact keys_Set c hc k value
  | Get k =>
    rw [touched_Get c hc] at h
    have hres : c.resident k := by
      by_contra hnot
      simp [hnot] at h
    simp only [hres, if_true, Option.some.injEq] at h
    subst h
    obtain ⟨p, hp⟩ := Option.isSome_iff_exists.1 hres
    obtain ⟨n, hn, hget⟩ := LruCache.Get_resident c hc k p hp
    have hmem : k ∈ c.keys := (LruCache.resident_iff_mem_keys c hc k).1 hres
    have hpos : 0 < c.keys.length := List.length_pos_of_mem hmem
    have hlen := LruCache.keys_length c hc
    have hle := hc.size_le
    simp only [step]
    rw [hget, LruCache.keys_promoted c hc k n _ hn, List.take_of_length_le]
    simp only [List.length_cons, List.length_erase_of_mem hmem]
    omega

theorem WF_step (c : LruCache K V) (hc : c.WF) (op : Op K V) : (step c op).WF := by
  cases op with
  | Get key => exact LruCache.WF_Get c hc key
  | Set key value => exact LruCache.WF_Set c hc key value

theorem WF_runOps (c : LruCache K V) (hc : c.WF) (ops : List (Op K V)) :
    (runOps c ops).WF := by
  induction ops generalizing c with
  | nil => exact hc
  | cons op ops ih => exact ih (step c op) (WF_step c hc op)

theorem keys_after_new_sets (c : LruCache K V) (hc : c.WF) (news : List (K × V))
    (hnd : (news.map Prod.fst).Nodup) (hnew : ∀ j ∈ news.map Prod.fst, j ∉ c.keys) :
    (runOps c (news.map (fun e => Op.Set e.1 e.2))).keys =
      ((news.map Prod.fst).reverse ++ c.keys).take c.m_capacity := by
  induction news generalizing c with
  | nil =>
    have hlen := LruCache.keys_length c hc
    have hle := hc.size_le
    simp only [List.map_nil, runOps, List.foldl_nil, List.reverse_nil, List.nil_append]
    rw [List.take_of_length_le (by omega)]
  | cons e rest ih =>
    simp only [List.map_cons, List.nodup_cons] at hnd
    have hk : (c.Set e.1 e.2).2.keys = (e.1 :: c.keys).take c.m_capacity := by
      rw [keys_Set c hc, List.erase_of_not_mem (hnew e.1 (by simp))]
    have hcap : (c.Set e.1 e.2).2.m_capacity = c.m_capacity :=
      capacity_step c (Op.Set e.1 e.2)
    have hnew2 : ∀ j ∈ rest.map Prod.fst, j ∉ (c.Set e.1 e.2).2.keys := by
      intro j hj hmem
      rw [hk] at hmem
      have hmem2 := List.mem_of_mem_take hmem
      simp only [List.mem_cons] at hmem2
      rcases hmem2 with rfl | hmem2
      · exact hnd.1 hj
      · exact hnew j (by simp only [List.map_cons, List.mem_cons]; exact Or.inr hj) hmem2
    have := ih (c.Set e.1 e.2).2 (LruCache.WF_Set c hc e.1 e.2) hnd.2 hnew2
    simp only [List.map_cons, runOps, List.foldl_cons, step] at this ⊢
    rw [this, hk, hcap, take_append_take]
    simp

theorem sorted_step (c : LruCache K V) (hc : c.WF) (log : List (Option K)) (op : Op K V)
    (hsome : ∀ a ∈ c.keys, ∃ t, lastTouch log a = some t)
    (hpair : c.keys.Pairwise (touchedAfter log)) :
    (∀ a ∈ (step c op).keys, ∃ t, lastTouch (log ++ [touched c op]) a = some t) ∧
      (step c op).keys.Pairwise (touchedAfter (log ++ [touched c op])) := by
  cases ht : touched c op with
  | none =>
    have hsame : ∀ a, lastTouch (log ++ [none]) a = lastTouch log a := by
      intro a
      rw [lastTouch_append_singleton]
      simp
    rw [step_of_untouched c hc op ht]
    refine ⟨fun a ha => by rw [hsame]; exact hsome a ha, ?_⟩
    refine hpair.imp ?_
    rintro a b ⟨ta, tb, h1, h2, h3⟩
    exact ⟨ta, tb, by rw [hsame]; exact h1, by rw [hsame]; exact h2, h3⟩
  | some x =>
    have hnd : c.keys.Nodup := hc.key_nodup
    have hx : lastTouch (log ++ [some x]) x = some log.length := by
      rw [lastTouch_append_singleton]
      simp
    have hother : ∀ a, a ≠ x → lastTouch (log ++ [some x]) a = lastTouch log a := by
      intro a ha
      rw [lastTouch_append_singleton]
      have : ¬ (some x = some a) := fun h => ha (Option.some.inj h).symm
      simp only [this, if_false]
    have hne : ∀ a ∈ c.keys.erase x, a ≠ x ∧ a ∈ c.keys := fun a ha =>
      (List.Nodup.mem_erase_iff hnd).1 ha
    have hall : ∀ a ∈ x :: c.keys.erase x, ∃ t, lastTouch (log ++ [some x]) a = some t := by
      intro a ha
      simp only [List.mem_cons] at ha
      rcases ha with rfl | ha
      · exact ⟨_, hx⟩
      · obtain ⟨hax, hmem⟩ := hne a ha
        rw [hother a hax]
        exact hsome a hmem
    have hp : (x :: c.keys.erase x).Pairwise (touchedAfter (log ++ [some x])) := by
      rw [List.pairwise_cons]
      constructor
      · intro b hb
        obtain ⟨hbx, hmem⟩ := hne b hb
        obtain ⟨tb, htb⟩ := hsome b hmem
        exact ⟨log.length, tb, hx, by rw [hother b hbx]; exact htb, lastTouch_lt log b tb htb⟩
      · refine (hpair.sublist (List.erase_sublist x c.keys)).imp_of_mem ?_
        rintro a b ha hb ⟨ta, tb, h1, h2, h3⟩
        exact ⟨ta, tb, by rw [hother a (hne a ha).1]; exact h1,
          by rw [hother b (hne b hb).1]; exact h2, h3⟩
    rw [keys_step c hc op x ht]
    exact ⟨fun a ha => hall a (List.mem_of_mem_take ha), hp.sublist (List.take_sublist _ _)⟩

theorem sorted_runOps (c0 : LruCache K V) (hc0 : c0.WF) (hempty : c0.keys = [])
    (history : List (Op K V)) :
    (∀ a ∈ (runOps c0 history).keys, ∃ t, lastTouch (touchLog c0 history) a = some t) ∧
      (runOps c0 history).keys.Pairwise (touchedAfter (touchLog c0 history)) := by
  induction history using List.reverseRecOn with
  | nil => simp [runOps, hempty]
  | append_singleton history op ih =>
    rw [runOps_append, touchLog_append]
    exact sorted_step _ (WF_runOps c0 hc0 history) _ op ih.1 ih.2

theorem comesBefore_step (c : LruCache K V) (hc : c.WF) (op : Op K V) (j k : K)
    (hquiet : touched c op ≠ some k) (hb : k ∈ c.keys → comesBefore j k c.keys)
    (hk : k ∈ (step c op).keys) : comesBefore j k (step c op).keys := by
  cases ht : touched c op with
  | none =>
    rw [step_of_untouched c hc op ht] at hk ⊢
    exact hb hk
  | some x =>
    have hx : x ≠ k := by
      rintro rfl
      exact hquiet ht
    rw [keys_step c hc op x ht] at hk ⊢
    exact comesBefore_touch c.keys hc.key_nodup j k x hx _ hb hk

theorem comesBefore_runOps (c : LruCache K V) (hc : c.WF) (j k : K) (ops : List (Op K V))
    (hquiet : some k ∉ touchLog c ops) (hb : k ∈ c.keys → comesBefore j k c.keys) (n : Nat)
    (hk : k ∈ (runOps c (ops.take n)).keys) :
    comesBefore j k (runOps c (ops.take n)).keys := by
  induction ops generalizing c n with
  | nil =>
    rw [List.take_nil] at hk ⊢
    exact hb hk
  | cons op ops ih =>
    cases n with
    | zero => exact hb hk
    | succ n =>
      simp only [touchLog, List.mem_cons, not_or] at hquiet
      exact ih (step c op) (WF_step c hc op) hquiet.2
        (comesBefore_step c hc op j k (fun h => hquiet.1 h.symm) hb) n hk

theorem resident_after_Set_at_capacity (c : LruCache K V) (hc : c.WF) (key : K) (value : V)
    (hfull : c.m_map.length = c.m_capacity) (hnone : map_find c.m_map key = none) :
    ∃ backKey, c.keys.getLast? = some backKey ∧
      ∀ j, (c.Set key value).2.resident j ↔ j = key ∨ (c.resident j ∧ j ≠ backKey) := by
  obtain ⟨backKey, hb, hset⟩ := LruCache.Set_new_full c hc key value hnone hfull
  refine ⟨backKey, hb, ?_⟩
  intro j
  rw [hset]
  simp only [LruCache.resident, LruCache.map_find_inserted, LruCache.map_find_evicted c hc]
  by_cases hj : j = key
  · simp [hj]
  · by_cases hjb : j = backKey
    · simp [hj, hjb]
    · simp [hj, hjb]

theorem lookup_Get (c : LruCache K V) (hc : c.WF) (key j : K) :
    (c.Get key).2.lookup j = c.lookup j := by
  cases h : map_find c.m_map key with
  | none => rw [LruCache.Get_absent c key h]
  | some p =>
    obtain ⟨n, _, hget⟩ := LruCache.Get_resident c hc key p h
    rw [hget]
    simp only [LruCache.lookup, LruCache.map_find_promoted]
    by_cases hj : j = key
    · simp [hj, h]
    · simp [hj]

theorem lookup_Set_of_ne (c : LruCache K V) (hc : c.WF) (key : K) (value : V) (j : K)
    (hj : j ≠ key) :
    (c.Set key value).2.lookup j = c.lookup j ∨ (c.Set key value).2.lookup j = none := by
  cases h : map_find c.m_map key with
  | some p =>
    obtain ⟨n, _, hset⟩ := LruCache.Set_resident c hc key value p h
    rw [hset]
    left
    simp [LruCache.lookup, LruCache.map_find_promoted, hj]
  | none =>
    by_cases hfull : c.m_map.length = c.m_capacity
    · obtain ⟨backKey, _, hset⟩ := LruCache.Set_new_full c hc key value h hfull
      rw [hset]
      simp only [LruCache.lookup, LruCache.map_find_inserted, LruCache.map_find_evicted c hc,
        hj, if_false]
      by_cases hjb : j = backKey
      · right
        simp [hjb]
      · left
        simp [hjb]
    · rw [LruCache.Set_new_room c key value h hfull]
      left
      simp [LruCache.lookup, LruCache.map_find_inserted, hj]

theorem lookup_Set_some (c : LruCache K V) (hc : c.WF) (key : K) (value : V) (j : K) (w : V)
    (hj : j ≠ key) (h : (c.Set key value).2.lookup j = some w) : c.lookup j = some w := by
  rcases lookup_Set_of_ne c hc key value j hj with h1 | h1
  · rw [← h1]
    exact h
  · rw [h1] at h
    cases h

/-- After `Set` the node of the key is the front node of the queue, it is the node that was
allocated last, and the index entry of the key holds the value and designates that node. -/
theorem Set_front (c : LruCache K V) (hc : c.WF) (key : K) (value : V) :
    ∃ q0, (c.Set key value).2.m_keyQueue = (freshNode q0, key) :: q0 ∧
      map_find (c.Set key value).2.m_map key = some (value, some (freshNode q0)) := by
  cases h : map_find c.m_map key with
  | some p =>
    obtain ⟨n, _, hset⟩ := LruCache.Set_resident c hc key value p h
    rw [hset]
    exact ⟨list_unlink c.m_keyQueue (some n), rfl, by simp [LruCache.map_find_promoted, h]⟩
  | none =>
    by_cases hfull : c.m_map.length = c.m_capacity
    · obtain ⟨backKey, _, hset⟩ := LruCache.Set_new_full c hc key value h hfull
      rw [hset]
      exact ⟨(LruCache.evicted c backKey).m_keyQueue, rfl, by simp [LruCache.map_find_inserted]⟩
    · rw [LruCache.Set_new_room c key value h hfull]
      exact ⟨c.m_keyQueue, rfl, by simp [LruCache.map_find_inserted]⟩

/-- After `Get` of a resident key the node of the key is the front node of the queue and the
index entry of the key designates it. -/
theorem Get_front (c : LruCache K V) (hc : c.WF) (key : K) (hres : c.resident key) :
    ∃ q0 value, (c.Get key).2.m_keyQueue = (freshNode q0, key) :: q0 ∧
      map_find (c.Get key).2.m_map key = some (value, some (freshNode q0)) := by
  obtain ⟨p, hp⟩ := Option.isSome_iff_exists.1 hres
  obtain ⟨n, _, hget⟩ := LruCache.Get_resident c hc key p hp
  rw [hget]
  exact ⟨list_unlink c.m_keyQueue (some n), p.1, rfl, by simp [LruCache.map_find_promoted, hp]⟩

theorem Set_again (c : LruCache K V) (key : K) (value : V) (q0 : KeyQueue K)
    (hq : c.m_keyQueue = (freshNode q0, key) :: q0)
    (hm : map_find c.m_map key = some (value, some (freshNode q0))) :
    c.Set key value = (.ok (), c) := by
  have hd : list_deref c.m_keyQueue (some (freshNode q0)) = some key := by
    simp [hq, list_deref]
  have he : list_unlink c.m_keyQueue (some (freshNode q0)) = q0 := by
    simp [hq, list_unlink]
  simp only [LruCache.Set, hm, LruCache.UpdateKeyQueue_surviving c _ key hd, map_modify_modify, he]
  rw [map_modify_fixed c.m_map key _ _ hm rfl]
  simp [list_push_front, ← hq]

theorem lookup_eq_none_of_not_mem (c : LruCache K V) (hc : c.WF) (key : K)
    (h : key ∉ c.keys) : c.lookup key = none := by
  have hnot : ¬ c.resident key := fun hres => h ((LruCache.resident_iff_mem_keys c hc key).1 hres)
  simp [LruCache.lookup, (not_resident_iff c key).1 hnot]

theorem sim_find (c : LruCache K V) (l : List (K × V)) (hs : Sim c l) (hc : c.WF) (key : K) :
    refFind l key = c.lookup key := by
  cases h : refFind l key with
  | none =>
    have hnot := (refFind_eq_none_iff l key).1 h
    rw [hs.1] at hnot
    rw [lookup_eq_none_of_not_mem c hc key hnot]
  | some v => rw [hs.2 _ (refFind_mem l key v h)]

theorem sim_keys_filter (c : LruCache K V) (l : List (K × V)) (hs : Sim c l) (hc : c.WF)
    (key : K) (v : V) :
    ((key, v) :: l.filter (fun e => decide (e.1 ≠ key))).map Prod.fst =
      key :: c.keys.erase key := by
  rw [List.map_cons, map_fst_filter_ne, hs.1, erase_eq_filter_of_nodup c.keys hc.key_nodup]

theorem keys_Get_resident (c : LruCache K V) (hc : c.WF) (key : K) (hres : c.resident key) :
    (c.Get key).2.keys = key :: c.keys.erase key := by
  obtain ⟨p, hp⟩ := Option.isSome_iff_exists.1 hres
  obtain ⟨n, hn, hget⟩ := LruCache.Get_resident c hc key p hp
  rw [hget, LruCache.keys_promoted c hc key n _ hn]

theorem sim_step (c : LruCache K V) (l : List (K × V)) (hs : Sim c l) (hc : c.WF)
    (op : Op K V) :
    outcome c op = refOutcome c.m_capacity l op ∧
      Sim (step c op) (refStep c.m_capacity l op) := by
  cases op with
  | Get key =>
    cases h : refFind l key with
    | none =>
      have hl : c.lookup key = none := by rw [← sim_find c l hs hc key, h]
      have hnone : map_find c.m_map key = none := by
        simpa [LruCache.lookup] using hl
      have hget := LruCache.Get_absent c key hnone
      constructor
      · show (c.Get key).1.map some = (refGet l key).1.map some
        rw [hget]
        simp only [refGet, h]
      · show Sim (c.Get key).2 (refGet l key).2
        rw [hget]
        simp only [refGet, h]
        exact hs
    | some v =>
      have hl : c.lookup key = some v := by rw [← sim_find c l hs hc key, h]
      have hres : c.resident key := (resident_iff_lookup c key).2 ⟨v, hl⟩
      constructor
      · show (c.Get key).1.map some = (refGet l key).1.map some
        rw [Get_ok_of_lookup c hc key v hl]
        simp only [refGet, h]
      · show Sim (c.Get key).2 (refGet l key).2
        simp only [refGet, h]
        refine ⟨?_, ?_⟩
        · rw [keys_Get_resident c hc key hres]
          exact sim_keys_filter c l hs hc key v
        · intro e he
          rw [lookup_Get c hc]
          simp only [List.mem_cons, List.mem_filter] at he
          rcases he with rfl | ⟨he, _⟩
          · exact hl
          · exact hs.2 e he
  | Set key value =>
    obtain ⟨hok, hstored⟩ := Set_ok_and_stored c hc key value
    have hkeys : (((key, value) :: l.filter (fun e => decide (e.1 ≠ key))).take
        c.m_capacity).map Prod.fst = (c.Set key value).2.keys := by
      rw [keys_Set c hc, List.map_take, sim_keys_filter c l hs hc key value]
    constructor
    · show (c.Set key value).1.map (fun _ => none) =
        (refSet c.m_capacity l key value).1.map (fun _ => none)
      rw [hok]
      rfl
    · show Sim (c.Set key value).2 (refSet c.m_capacity l key value).2
      simp only [refSet]
      refine ⟨hkeys, ?_⟩
      intro e he
      have hin : e.1 ∈ (c.Set key value).2.keys := by
        rw [← hkeys]
        exact List.mem_map_of_mem Prod.fst he
      have he2 := List.mem_of_mem_take he
      simp only [List.mem_cons, List.mem_filter, decide_eq_true_eq] at he2
      rcases he2 with rfl | ⟨he2, hne⟩
      · exact hstored
      · have hres :=
          (LruCache.resident_iff_mem_keys _ (LruCache.WF_Set c hc key value) e.1).2 hin
        obtain ⟨w, hw⟩ := (resident_iff_lookup _ e.1).1 hres
        have hold := lookup_Set_some c hc key value e.1 w hne hw
        rw [hs.2 e he2] at hold
        rw [hw, ← Option.some.inj hold]

theorem sim_run (c : LruCache K V) (l : List (K × V)) (hs : Sim c l) (hc : c.WF)
    (ops : List (Op K V)) :
    outcomes c ops = refOutcomes c.m_capacity l ops ∧
      Sim (runOps c ops) (refRun c.m_capacity l ops) := by
  induction ops generalizing c l with
  | nil => exact ⟨rfl, hs⟩
  | cons op ops ih =>
    obtain ⟨hout, hs1⟩ := sim_step c l hs hc op
    obtain ⟨h1, h2⟩ := ih (step c op) (refStep c.m_capacity l op) hs1 (WF_step c hc op)
    rw [capacity_step c op] at h1 h2
    refine ⟨?_, h2⟩
    show outcome c op :: outcomes (step c op) ops =
      refOutcome c.m_capacity l op :: refOutcomes c.m_capacity (refStep c.m_capacity l op) ops
    rw [hout, h1]

/-- With `SurvivingRead`: in a reachable cache whose index holds `capacity` entries, `Set` of a key
that is not resident succeeds, removes the key at the back of the recency ordering from the index
and from the ordering and no other key, and puts the new key in front with the given value: the new
ordering is the key followed by the old ordering without its last element, every other key keeps its
value, and both containers still hold `capacity` elements. -/
theorem Set_at_capacity_evicts_back_of_survivingRead (c : LruCache K V) (key : K) (value : V)
    (hr : Reachable c) (hfull : c.m_map.length = c.m_capacity) (hnew : ¬ c.resident key) :
    ∃ backKey, c.keys.getLast? = some backKey ∧
      (c.Set key value).1 = .ok () ∧
      (c.Set key value).2.keys = key :: c.keys.dropLast ∧
      (∀ j, (c.Set key value).2.lookup j =
        if j = key then some value else if j = backKey then none else c.lookup j) ∧
      (∀ j, (c.Set key value).2.resident j ↔ j = key ∨ (c.resident j ∧ j ≠ backKey)) ∧
      (c.Set key value).2.m_map.length = c.m_capacity ∧
      (c.Set key value).2.m_keyQueue.length = c.m_capacity ∧
      (c.Set key value).2.m_capacity = c.m_capacity := by
  have hc := hr.wf
  have hnone := (not_resident_iff c key).1 hnew
  obtain ⟨backKey, hb, hset⟩ := LruCache.Set_new_full c hc key value hnone hfull
  obtain ⟨hwf, hlen⟩ := LruCache.WF_evicted c hc backKey hb
  have hfind : ∀ j, map_find (LruCache.inserted (LruCache.evicted c backKey) key value).m_map j =
      if j = key then some (value, some (freshNode (LruCache.evicted c backKey).m_keyQueue))
      else if j = backKey then none else map_find c.m_map j := by
    intro j
    rw [LruCache.map_find_inserted, LruCache.map_find_evicted c hc]
  have hsize : (LruCache.inserted (LruCache.evicted c backKey) key value).m_map.length =
      c.m_capacity := by
    simp only [LruCache.inserted, List.length_cons]
    omega
  refine ⟨backKey, hb, ?_⟩
  rw [hset]
  refine ⟨rfl, ?_, ?_, ?_, hsize, ?_, rfl⟩
  · rw [LruCache.keys_inserted, LruCache.keys_evicted]
  · intro j
    simp only [LruCache.lookup, hfind]
    by_cases hj : j = key
    · simp [hj]
    · by_cases hjb : j = backKey
      · simp [hj, hjb]
      · simp [hj, hjb]
  · intro j
    simp only [LruCache.resident, hfind]
    by_cases hj : j = key
    · simp [hj]
    · by_cases hjb : j = backKey
      · simp [hj, hjb]
      · simp [hj, hjb]
  · have hwf2 := LruCache.WF_Set c hc key value
    rw [hset] at hwf2
    rw [← hwf2.size_eq]
    exact hsize

/-- With `SurvivingRead`: in a reachable cache, `Get` of a resident key returns the value the index
holds for it and moves the key to the front of the recency ordering: the new ordering is the key
followed by the old ordering without that key, all other keys in their old order; the resident keys
and the value of every key are as before. -/
theorem Get_resident_returns_and_promotes_of_survivingRead (c : LruCache K V) (key : K)
    (hr : Reachable c) (hres : c.resident key) :
    ∃ value, c.lookup key = some value ∧
      (c.Get key).1 = .ok value ∧
      (c.Get key).2.keys = key :: c.keys.filter (fun j => decide (j ≠ key)) ∧
      (∀ j, (c.Get key).2.lookup j = c.lookup j) ∧
      (∀ j, (c.Get key).2.resident j ↔ c.resident j) ∧
      (c.Get key).2.m_capacity = c.m_capacity := by
  have hc := hr.wf
  obtain ⟨p, hp⟩ := Option.isSome_iff_exists.1 hres
  obtain ⟨n, hn, hget⟩ := LruCache.Get_resident c hc key p hp
  refine ⟨p.1, by simp [LruCache.lookup, hp], ?_⟩
  rw [hget]
  refine ⟨rfl, ?_, ?_, ?_, rfl⟩
  · rw [LruCache.keys_promoted c hc key n _ hn, erase_eq_filter_of_nodup c.keys hc.key_nodup]
  · intro j
    simp only [LruCache.lookup, LruCache.map_find_promoted]
    by_cases hj : j = key
    · simp [hj, hp]
    · simp [hj]
  · intro j
    simp only [LruCache.resident, LruCache.map_find_promoted]
    by_cases hj : j = key
    · simp [hj, hp]
    · simp [hj]

/-- With `SurvivingRead`: in a reachable cache, `Set` of a resident key succeeds, replaces the value
of the key, moves the key to the front of the recency ordering with all other keys in their old
order, and evicts nothing, whatever the fill of the cache: the resident keys, the number of entries
and the value of every other key are as before. -/
theorem Set_resident_replaces_and_promotes_of_survivingRead (c : LruCache K V) (key : K) (value : V)
    (hr : Reachable c) (hres : c.resident key) :
    (c.Set key value).1 = .ok () ∧
      (c.Set key value).2.keys = key :: c.keys.filter (fun j => decide (j ≠ key)) ∧
      (∀ j, (c.Set key value).2.lookup j = if j = key then some value else c.lookup j) ∧
      (∀ j, (c.Set key value).2.resident j ↔ c.resident j) ∧
      (c.Set key value).2.m_map.length = c.m_map.length ∧
      (c.Set key value).2.m_keyQueue.length = c.m_keyQueue.length ∧
      (c.Set key value).2.m_capacity = c.m_capacity := by
  have hc := hr.wf
  obtain ⟨p, hp⟩ := Option.isSome_iff_exists.1 hres
  obtain ⟨n, hn, hset⟩ := LruCache.Set_resident c hc key value p hp
  have hwf2 := LruCache.WF_Set c hc key value
  rw [hset] at hwf2 ⊢
  have hsize : (LruCache.promoted c key n (fun _ =>
      (value, some (freshNode (list_unlink c.m_keyQueue (some n)))))).m_map.length =
      c.m_map.length := by
    simp only [LruCache.promoted, map_modify_length]
  refine ⟨rfl, ?_, ?_, ?_, hsize, ?_, rfl⟩
  · rw [LruCache.keys_promoted c hc key n _ hn, erase_eq_filter_of_nodup c.keys hc.key_nodup]
  · intro j
    simp only [LruCache.lookup, LruCache.map_find_promoted]
    by_cases hj : j = key
    · simp [hj, hp]
    · simp [hj]
  · intro j
    simp only [LruCache.resident, LruCache.map_find_promoted]
    by_cases hj : j = key
    · simp [hj, hp]
    · simp [hj]
  · rw [← hwf2.size_eq, hsize, hc.size_eq]

/-- With `SurvivingRead`: in a reachable cache, for every key and value, `Set(key, value)` succeeds
and a `Get(key)` issued right after it succeeds and returns `value`, whether the key was absent or
resident and whether the cache was full or not before the `Set`. -/
theorem Get_after_Set_of_survivingRead (c : LruCache K V) (key : K) (value : V) (hr : Reachable c) :
    (c.Set key value).1 = .ok () ∧ ((c.Set key value).2.Get key).1 = .ok value := by
  have hc := hr.wf
  obtain ⟨hok, hstored⟩ := Set_ok_and_stored c hc key value
  exact ⟨hok, Get_ok_of_lookup _ (LruCache.WF_Set c hc key value) key value hstored⟩

/-- With `SurvivingRead`: in a reachable cache, after a call that touches `key` (a `Get(key)` that
returns a value, or a `Set(key, ·)`), `Set` on `n` pairwise distinct keys that are not resident and
differ from `key`, with nothing in between, leaves `key` resident exactly when `n < capacity`: the
key survives `capacity - 1` insertions of new keys and the `capacity`-th evicts it. -/
theorem touched_key_resident_iff_of_survivingRead (c : LruCache K V)
    (hr : Reachable c) (op : Op K V) (key : K)
    (htouch : touched c op = some key) (news : List (K × V))
    (hdistinct : (news.map Prod.fst).Nodup)
    (hnew : ∀ j ∈ news.map Prod.fst, ¬ (step c op).resident j ∧ j ≠ key) :
    (runOps (step c op) (news.map (fun e => Op.Set e.1 e.2))).resident key ↔
      news.length < c.m_capacity := by
  have hc := hr.wf
  have hc1 := WF_step c hc op
  have hcap := capacity_step c op
  have hkeys : (step c op).keys = key :: (c.keys.erase key).take (c.m_capacity - 1) := by
    rw [keys_step c hc op key htouch, List.take_cons hc.cap_pos]
  have hnotin : key ∉ (c.keys.erase key).take (c.m_capacity - 1) := by
    have hnd : (step c op).keys.Nodup := hc1.key_nodup
    rw [hkeys, List.nodup_cons] at hnd
    exact hnd.1
  have hfresh : ∀ j ∈ news.map Prod.fst, j ∉ (step c op).keys := fun j hj hmem =>
    (hnew j hj).1 ((LruCache.resident_iff_mem_keys _ hc1 j).2 hmem)
  have hrev : key ∉ (news.map Prod.fst).reverse := by
    intro hmem
    exact (hnew key (List.mem_reverse.1 hmem)).2 rfl
  rw [LruCache.resident_iff_mem_keys _ (WF_runOps _ hc1 _),
    keys_after_new_sets _ hc1 news hdistinct hfresh, hkeys, hcap,
    mem_take_append_cons_iff _ _ _ _ hrev]
  simp

/-- With `SurvivingRead`: take a cache constructed with an `int` capacity and brought by a history
of calls to a state where `k` and `j` are both resident and the last touch of `j` is later than that
of `k`. Then along every further sequence of calls none of which touches `k`, after each of its
initial segments, `j` is resident whenever `k` still is: `k` leaves the cache before `j`. -/
theorem less_recent_key_leaves_first_of_survivingRead (capacity : Int) (c0 : LruCache K V)
    (hhi : capacity ≤ INT_MAX) (hcon : LruCache.construct capacity = .ok c0)
    (history : List (Op K V)) (k j : K)
    (hk : (runOps c0 history).resident k) (hj : (runOps c0 history).resident j)
    (hrecent : touchedAfter (touchLog c0 history) j k)
    (ops : List (Op K V)) (hquiet : some k ∉ touchLog (runOps c0 history) ops) (n : Nat) :
    (runOps (runOps c0 history) (ops.take n)).resident k →
      (runOps (runOps c0 history) (ops.take n)).resident j := by
  have hc0 := LruCache.WF_construct capacity c0 hhi hcon
  have hempty : c0.keys = [] := by
    rw [(LruCache.construct_eq_ok capacity c0 hcon).2]
    rfl
  have hc := WF_runOps c0 hc0 history
  have hsorted := (sorted_runOps c0 hc0 hempty history).2
  have hstart : k ∈ (runOps c0 history).keys → comesBefore j k (runOps c0 history).keys :=
    fun _ => comesBefore_of_touchedAfter _ _ j k hsorted
      ((LruCache.resident_iff_mem_keys _ hc j).1 hj)
      ((LruCache.resident_iff_mem_keys _ hc k).1 hk) hrecent
  have hc2 := WF_runOps _ hc (ops.take n)
  intro hkres
  rw [LruCache.resident_iff_mem_keys _ hc2] at hkres ⊢
  obtain ⟨a, b, hl, hja⟩ := comesBefore_runOps _ hc j k ops hquiet hstart n hkres
  rw [hl]
  exact List.mem_append_left _ hja

/-- With `SurvivingRead`: in the state a history of calls leads to from a cache constructed with an
`int` capacity, the recency ordering lists exactly the resident keys, each of them has a last touch
in the history, and front to back the positions of these last touches strictly decrease. Hence a
`Set` of a new key at full capacity evicts one resident key and no other, and every other resident
key has a later last touch than the evicted one. -/
theorem recency_order_reflects_last_touch_of_survivingRead (capacity : Int) (c0 : LruCache K V)
    (hhi : capacity ≤ INT_MAX) (hcon : LruCache.construct capacity = .ok c0)
    (history : List (Op K V)) :
    (∀ a, a ∈ (runOps c0 history).keys ↔ (runOps c0 history).resident a) ∧
      (∀ a ∈ (runOps c0 history).keys, ∃ t, lastTouch (touchLog c0 history) a = some t) ∧
      (runOps c0 history).keys.Pairwise (touchedAfter (touchLog c0 history)) ∧
      (∀ key value, (runOps c0 history).m_map.length = (runOps c0 history).m_capacity →
        ¬ (runOps c0 history).resident key →
        ∃ victim, (runOps c0 history).resident victim ∧
          (∀ a, ((runOps c0 history).Set key value).2.resident a ↔
            a = key ∨ ((runOps c0 history).resident a ∧ a ≠ victim)) ∧
          (∀ a, (runOps c0 history).resident a → a ≠ victim →
            touchedAfter (touchLog c0 history) a victim)) := by
  have hc0 := LruCache.WF_construct capacity c0 hhi hcon
  have hempty : c0.keys = [] := by
    rw [(LruCache.construct_eq_ok capacity c0 hcon).2]
    rfl
  have hc := WF_runOps c0 hc0 history
  obtain ⟨hsome, hsorted⟩ := sorted_runOps c0 hc0 hempty history
  refine ⟨fun a => (LruCache.resident_iff_mem_keys _ hc a).symm, hsome, hsorted, ?_⟩
  intro key value hfull hnew
  obtain ⟨victim, hlast, hres⟩ := resident_after_Set_at_capacity _ hc key value hfull
    ((not_resident_iff _ key).1 hnew)
  have hsplit := List.dropLast_append_getLast? victim hlast
  have hvmem : victim ∈ (runOps c0 history).keys := by
    rw [← hsplit]
    simp
  refine ⟨victim, (LruCache.resident_iff_mem_keys _ hc victim).2 hvmem, hres, ?_⟩
  intro a ha hav
  have hamem := (LruCache.resident_iff_mem_keys _ hc a).1 ha
  rw [← hsplit] at hamem hsorted
  simp only [List.mem_append, List.mem_singleton] at hamem
  rcases hamem with hamem | hamem
  · exact (List.pairwise_append.1 hsorted).2.2 a hamem victim (List.mem_singleton_self victim)
  · exact absurd hamem hav

/-- With `SurvivingRead`: in every reachable cache `Set` completes without an error, for every key
and value. When the index holds `capacity` entries the queue is not empty, so its back can be read,
and `RemoveLeastRecentlyUsedItem` succeeds (the back key is in the index and one entry is erased);
for a key that is not resident `InsertNewPair`, called after the eviction if there was one, succeeds
(the insertion is accepted); for a resident key `UpdateKeyQueue` succeeds. -/
theorem Set_never_fails_of_survivingRead (c : LruCache K V) (key : K)
    (value : V) (hr : Reachable c) :
    (c.Set key value).1 = .ok () ∧
      (c.m_map.length = c.m_capacity →
        c.m_keyQueue ≠ [] ∧ c.RemoveLeastRecentlyUsedItem.1 = .ok ()) ∧
      (¬ c.resident key →
        (LruCache.InsertNewPair
          (if c.m_map.length = c.m_capacity then c.RemoveLeastRecentlyUsedItem.2 else c)
          key value).1 = .ok ()) ∧
      (∀ p, map_find c.m_map key = some p → ∃ it, (c.UpdateKeyQueue p.2).1 = .ok it) := by
  have hc := hr.wf
  have hfullne : c.m_map.length = c.m_capacity → c.m_map ≠ [] := by
    intro hfull h0
    have := hc.cap_pos
    rw [h0] at hfull
    simp at hfull
    omega
  refine ⟨(Set_ok_and_stored c hc key value).1, ?_, ?_, ?_⟩
  · intro hfull
    obtain ⟨backKey, _, hrem⟩ := LruCache.Remove_eq c hc (hfullne hfull)
    refine ⟨?_, by rw [hrem]⟩
    intro hq
    have := hc.size_eq
    rw [hq] at this
    exact hfullne hfull (List.length_eq_zero.1 this)
  · intro hnew
    have hnone := (not_resident_iff c key).1 hnew
    by_cases hfull : c.m_map.length = c.m_capacity
    · obtain ⟨backKey, _, hrem⟩ := LruCache.Remove_eq c hc (hfullne hfull)
      have hnone2 : map_find (LruCache.evicted c backKey).m_map key = none := by
        rw [LruCache.map_find_evicted c hc]
        split_ifs
        · rfl
        · exact hnone
      simp only [hfull, if_true, hrem]
      rw [LruCache.InsertNewPair_eq _ key value hnone2]
    · simp only [hfull, if_false]
      rw [LruCache.InsertNewPair_eq _ key value hnone]
  · intro p hp
    obtain ⟨n, hn, hd⟩ := LruCache.resident_node c hc key p hp
    rw [hn, LruCache.UpdateKeyQueue_surviving c n key hd]
    exact ⟨_, rfl⟩

/-- With `SurvivingRead`: in every reachable cache the keys of the index are exactly the keys of the
queue, no key is queued twice and no key is indexed twice: every indexed key occurs once in the
queue, every queued key occurs once in the index, and the two key lists are permutations of each
other. -/
theorem index_keys_match_queue_keys_of_survivingRead (c : LruCache K V) (hr : Reachable c) :
    (∀ key, key ∈ c.m_map.map Prod.fst ↔ key ∈ c.keys) ∧
      c.keys.Nodup ∧ (c.m_map.map Prod.fst).Nodup ∧
      (∀ key ∈ c.m_map.map Prod.fst, c.keys.count key = 1) ∧
      (∀ key ∈ c.keys, (c.m_map.map Prod.fst).count key = 1) ∧
      (c.m_map.map Prod.fst).Perm c.keys := by
  have hc := hr.wf
  have hk : c.keys.Nodup := hc.key_nodup
  have hiff : ∀ key, key ∈ c.m_map.map Prod.fst ↔ key ∈ c.keys := by
    intro key
    rw [← LruCache.resident_iff_mem_keys c hc key]
    constructor
    · intro hmem
      by_contra hnot
      exact (map_find_eq_none_iff c.m_map key).1 ((not_resident_iff c key).1 hnot) hmem
    · intro hres
      by_contra hnot
      exact (not_resident_iff c key).2 ((map_find_eq_none_iff c.m_map key).2 hnot) hres
  refine ⟨hiff, hk, hc.map_nodup, ?_, ?_, ?_⟩
  · intro key hmem
    exact List.count_eq_one_of_mem hk ((hiff key).1 hmem)
  · intro key hmem
    exact List.count_eq_one_of_mem hc.map_nodup ((hiff key).2 hmem)
  · exact (List.perm_ext_iff_of_nodup hc.map_nodup hk).2 hiff

/-- With `SurvivingRead`: in a reachable cache, `Set(key, value)` applied twice in a row succeeds
both times and leaves the cache that one application leaves: the same recency ordering, the same
value for every key, the same resident keys, the same capacity; in the model the second call returns
the very state it was given. -/
theorem Set_twice_eq_Set_once_of_survivingRead (c : LruCache K V) (key : K)
    (value : V) (hr : Reachable c) :
    (c.Set key value).1 = .ok () ∧
      ((c.Set key value).2.Set key value).1 = .ok () ∧
      ((c.Set key value).2.Set key value).2.keys = (c.Set key value).2.keys ∧
      (∀ j, ((c.Set key value).2.Set key value).2.lookup j = (c.Set key value).2.lookup j) ∧
      (∀ j, ((c.Set key value).2.Set key value).2.resident j ↔
        (c.Set key value).2.resident j) ∧
      ((c.Set key value).2.Set key value).2.m_capacity = (c.Set key value).2.m_capacity ∧
      ((c.Set key value).2.Set key value).2 = (c.Set key value).2 := by
  have hc := hr.wf
  obtain ⟨q0, hq, hm⟩ := Set_front c hc key value
  have h2 := Set_again (c.Set key value).2 key value q0 hq hm
  rw [h2]
  exact ⟨(Set_ok_and_stored c hc key value).1, rfl, rfl, fun _ => rfl, fun _ => Iff.rfl,
    rfl, rfl⟩

/-- With `SurvivingRead`: in every reachable cache the iterator stored in an index entry designates
a node of the queue, and that node holds the key of the entry. For a resident key `UpdateKeyQueue`
succeeds, the iterator it leaves is `begin()` of the new queue and the front node holds the key;
after the `Get` or `Set` that called it the entry of the key designates the front node, and every
entry of the index still designates a node that holds its key. -/
theorem stored_iterators_resolve_of_survivingRead (c : LruCache K V) (hr : Reachable c) :
    (∀ key p, map_find c.m_map key = some p → list_deref c.m_keyQueue p.2 = some key) ∧
      (∀ key p, map_find c.m_map key = some p →
        ∃ it, (c.UpdateKeyQueue p.2).1 = .ok it ∧
          it = list_begin (c.UpdateKeyQueue p.2).2.m_keyQueue ∧
          list_deref (c.UpdateKeyQueue p.2).2.m_keyQueue it = some key) ∧
      (∀ key, c.resident key →
        (∃ p, map_find (c.Get key).2.m_map key = some p ∧
          p.2 = list_begin (c.Get key).2.m_keyQueue) ∧
        ∀ j p, map_find (c.Get key).2.m_map j = some p →
          list_deref (c.Get key).2.m_keyQueue p.2 = some j) ∧
      (∀ key value,
        (∃ p, map_find (c.Set key value).2.m_map key = some p ∧
          p.2 = list_begin (c.Set key value).2.m_keyQueue) ∧
        ∀ j p, map_find (c.Set key value).2.m_map j = some p →
          list_deref (c.Set key value).2.m_keyQueue p.2 = some j) := by
  have hc := hr.wf
  have hres : ∀ c1 : LruCache K V, c1.WF → ∀ key p, map_find c1.m_map key = some p →
      list_deref c1.m_keyQueue p.2 = some key := by
    intro c1 hc1 key p hp
    obtain ⟨n, hn, hd⟩ := LruCache.resident_node c1 hc1 key p hp
    rw [hn]
    exact hd
  refine ⟨hres c hc, ?_, ?_, ?_⟩
  · intro key p hp
    obtain ⟨n, hn, hd⟩ := LruCache.resident_node c hc key p hp
    rw [hn, LruCache.UpdateKeyQueue_surviving c n key hd]
    exact ⟨_, rfl, rfl, by simp [list_push_front, list_deref]⟩
  · intro key hkey
    refine ⟨?_, hres _ (LruCache.WF_Get c hc key)⟩
    obtain ⟨q0, value, hq, hm⟩ := Get_front c hc key hkey
    exact ⟨_, hm, by rw [hq]; rfl⟩
  · intro key value
    refine ⟨?_, hres _ (LruCache.WF_Set c hc key value)⟩
    obtain ⟨q0, hq, hm⟩ := Set_front c hc key value
    exact ⟨_, hm, by rw [hq]; rfl⟩

/-- With `SurvivingRead`: for every positive `int` capacity the constructed cache and the reference
model (one list of (key, value) pairs, started empty, with the same capacity) agree on every
sequence of calls: each call gives back the same result in both, and after each initial segment of
the sequence the keys of the model list, in order, are the recency ordering of the cache, they are
pairwise distinct, and the model and the index hold the same value for every key. -/
theorem cache_refines_reference_model_of_survivingRead (capacity : Int) (hpos : 0 < capacity)
    (hhi : capacity ≤ INT_MAX) :
    ∃ c0 : LruCache K V, LruCache.construct capacity = .ok c0 ∧
      ∀ ops : List (Op K V),
        outcomes c0 ops = refOutcomes capacity.toNat [] ops ∧
        ∀ n, (refRun capacity.toNat [] (ops.take n)).map Prod.fst =
            (runOps c0 (ops.take n)).keys ∧
          ((refRun capacity.toNat [] (ops.take n)).map Prod.fst).Nodup ∧
          ∀ key, refFind (refRun capacity.toNat [] (ops.take n)) key =
            (runOps c0 (ops.take n)).lookup key := by
  have h : ¬ 0 ≥ capacity := by omega
  have hcon : (LruCache.construct capacity : Except Error (LruCache K V)) =
      .ok { m_capacity := (capacity % 2 ^ 64).toNat, m_map := [], m_keyQueue := [] } := by
    simp only [LruCache.construct, h, if_false]
  have hcap : (capacity % 2 ^ 64).toNat = capacity.toNat := by
    unfold INT_MAX at hhi
    omega
  have hc0 := LruCache.WF_construct capacity _ hhi hcon
  have hs0 : Sim ({ m_capacity := (capacity % 2 ^ 64).toNat, m_map := [], m_keyQueue := [] } :
      LruCache K V) [] := ⟨rfl, fun e he => absurd he (List.not_mem_nil e)⟩
  refine ⟨_, hcon, ?_⟩
  intro ops
  refine ⟨?_, ?_⟩
  · rw [← hcap]
    exact (sim_run _ [] hs0 hc0 ops).1
  · intro n
    have hsim := (sim_run _ [] hs0 hc0 (ops.take n)).2
    have hwf := WF_runOps _ hc0 (ops.take n)
    rw [← hcap]
    refine ⟨hsim.1, ?_, fun key => sim_find _ _ hsim hwf key⟩
    rw [hsim.1]
    exact hwf.key_nodup

end surviving_lemmas

/-! ## The scenarios of the test suite, run on the model -/

section scenarios

/-- Test `most_basic_sanity`: capacity 2, `Set(0,0)`, `Set(1,1)`, then `Get(0)` is 0 and `Get(1)`
is 1. -/
theorem scenario_most_basic_sanity :
    (exampleFull.Get 0).1 = .ok 0 ∧ ((exampleFull.Get 0).2.Get 1).1 = .ok 1 :=
  ⟨rfl, rfl⟩

/-- Test `outdated_item_should_not_be_found_in_cache`: capacity 2, `Set(0,0)`, `Set(1,1)`,
`Set(2,2)`, then `Get(1)` is 1 and `Get(0)` throws. -/
theorem scenario_outdated_item :
    ((runOps exampleFull [Op.Set 2 2]).Get 1).1 = .ok 1 ∧
      ((runOps exampleFull [Op.Set 2 2, Op.Get 1]).Get 0).1 = .error .KeyNotFound :=
  ⟨rfl, rfl⟩

/-- Test `item_outdated_by_get_function_call_should_not_be_found_in_cache`: capacity 2,
`Set(0,0)`, `Set(1,1)`, `Get(0)`, `Set(2,2)`, then `Get(1)` throws and `Get(0)` is 0. -/
theorem scenario_outdated_by_get :
    ((runOps exampleFull [Op.Get 0, Op.Set 2 2]).Get 1).1 = .error .KeyNotFound ∧
      ((runOps exampleFull [Op.Get 0, Op.Set 2 2]).Get 0).1 = .ok 0 :=
  ⟨rfl, rfl⟩

set_option maxRecDepth 100000 in
/-- Test `item_outdated_by_get_function_call_should_not_be_found_in_cache_with_larger_cache_capacity`:
capacity 100, `Set(i,i)` for `i` from 0 to 99, `Get(j)` for `j` from 0 to 70, `Set(100,100)`,
then `Get(71)` throws, while `Get(70)` is 70. -/
theorem scenario_larger_capacity :
    ((runOps exampleHundred (exampleHistory ++ [Op.Set 100 100])).Get 71).1 =
        .error .KeyNotFound ∧
      ((runOps exampleHundred (exampleHistory ++ [Op.Set 100 100])).Get 70).1 = .ok 70 :=
  ⟨rfl, rfl⟩

theorem reachable_exampleLongOne : Reachable exampleLongOne :=
  Reachable.construct 1 exampleLongOne (by decide) (by decide) rfl

theorem reachable_exampleLongTwo : Reachable exampleLongTwo :=
  Reachable.construct 2 exampleLongTwo (by decide) (by decide) rfl

theorem reachable_exampleLongHit : Reachable exampleLongHit :=
  reachable_exampleLongOne.runOps _

theorem reachable_exampleLongPair : Reachable exampleLongPair :=
  reachable_exampleLongTwo.runOps _

theorem reachable_exampleLongShadow : Reachable exampleLongShadow :=
  reachable_exampleLongTwo.runOps _

end scenarios

/-! ## The claims -/

section claims

variable {K V : Type} [DecidableEq K] [ErasedRead K]

/-- C1: the code departs from the claim in a reachable full cache whose key type does not survive
the erased read: capacity 1 after `Set(A,0)` and `Get(A)`. The index holds `capacity` entries, of
which `A` is one, the back of the queue holds what `UpdateKeyQueue` read through the erased
iterator, and `B` is not resident. `Set(B,1)` throws "content mismatch" and leaves the cache as it
was: nothing is evicted, `B` is not inserted, and the ordering is not `B` followed by the old
ordering without its last element. -/
theorem Set_at_capacity_throws_after_hit :
    Reachable exampleLongHit ∧
      exampleLongHit.m_map.length = exampleLongHit.m_capacity ∧
      ¬ exampleLongHit.resident longB ∧
      exampleLongHit.resident longA ∧
      exampleLongHit.keys.getLast? = some LongKey.garbage ∧
      exampleLongHit.Set longB 1 = (.error .ContentMismatch, exampleLongHit) ∧
      (exampleLongHit.Set longB 1).2.keys ≠ longB :: exampleLongHit.keys.dropLast ∧
      (exampleLongHit.Set longB 1).2.resident longA ∧
      ¬ (exampleLongHit.Set longB 1).2.resident longB ∧
      (exampleLongHit.Set longB 1).2.lookup longB ≠ some 1 :=
  ⟨reachable_exampleLongHit, by decide, by decide, by decide, by decide, rfl, by decide,
    by decide, by decide, by decide⟩

/-- C2: the code departs from the claim in a reachable cache whose key type does not survive the
erased read: capacity 2 holding `B` and `A`. `Get(A)` returns the value of `A` and leaves the
resident keys as they were, but the node it puts in front of the queue holds what was read through
the erased iterator: the new ordering is not `A` followed by the old ordering without `A`. -/
theorem Get_resident_pushes_erased_read :
    Reachable exampleLongPair ∧
      exampleLongPair.resident longA ∧
      exampleLongPair.keys = [longB, longA] ∧
      (exampleLongPair.Get longA).1 = .ok 0 ∧
      (exampleLongPair.Get longA).2.keys = [LongKey.garbage, longB] ∧
      (exampleLongPair.Get longA).2.keys ≠
        longA :: exampleLongPair.keys.filter (fun j => decide (j ≠ longA)) ∧
      (exampleLongPair.Get longA).2.resident longA :=
  ⟨reachable_exampleLongPair, by decide, by decide, rfl, by decide, by decide, by decide⟩

/-- C3: `Get` of a key that is not resident fails with the "key does not exist" error and
leaves the cache exactly as it was; this holds in every state, the reachable ones included. -/
theorem Get_absent_fails_unchanged (c : LruCache K V) (key : K) (hnot : ¬ c.resident key) :
    c.Get key = (.error .KeyNotFound, c) :=
  LruCache.Get_absent c key ((not_resident_iff c key).1 hnot)

/-- C3, at an example: capacity 2 holding keys 1 and 0, `Get(7)`. -/
theorem Get_absent_fails_unchanged_witness :
    ¬ exampleFull.resident 7 ∧ exampleFull.Get 7 = (.error .KeyNotFound, exampleFull) :=
  ⟨by decide, Get_absent_fails_unchanged exampleFull 7 (by decide)⟩

/-- C4: the code departs from the claim in a reachable cache whose key type does not survive the
erased read: capacity 2 holding `B` and `A`. `Set(A,5)` succeeds, stores 5 for `A` and evicts
nothing, but the node it puts in front of the queue holds what was read through the erased iterator:
the new ordering is not `A` followed by the old ordering without `A`. -/
theorem Set_resident_pushes_erased_read :
    Reachable exampleLongPair ∧
      exampleLongPair.resident longA ∧
      (exampleLongPair.Set longA 5).1 = .ok () ∧
      (exampleLongPair.Set longA 5).2.lookup longA = some 5 ∧
      (exampleLongPair.Set longA 5).2.m_map.length = exampleLongPair.m_map.length ∧
      (exampleLongPair.Set longA 5).2.keys = [LongKey.garbage, longB] ∧
      (exampleLongPair.Set longA 5).2.keys ≠
        longA :: exampleLongPair.keys.filter (fun j => decide (j ≠ longA)) :=
  ⟨reachable_exampleLongPair, by decide, rfl, by decide, by decide, by decide, by decide⟩

/-- C5: the code departs from the claim in a reachable full cache whose key type does not survive
the erased read: capacity 1 after `Set(A,0)` and `Get(A)`. `Set(B,1)` throws "content mismatch", and
the `Get(B)` issued right after it fails with "key does not exist" instead of returning 1. -/
theorem Get_after_Set_fails_after_hit :
    Reachable exampleLongHit ∧
      (exampleLongHit.Set longB 1).1 = .error .ContentMismatch ∧
      ((exampleLongHit.Set longB 1).2.Get longB).1 = .error .KeyNotFound ∧
      ((exampleLongHit.Set longB 1).2.Get longB).1 ≠ .ok 1 :=
  ⟨reachable_exampleLongHit, rfl, rfl, (fun h => by cases h)⟩

/-- C7: for every integer capacity the constructor fails with "Invalid capacity." exactly when
the capacity is at most 0; for every positive capacity it succeeds with both containers empty,
so that `Get` of any key fails with the "key does not exist" error, and for a positive `int`
(up to `INT_MAX`) the capacity of the cache is the argument. -/
theorem construct_fails_iff_nonpositive (capacity : Int) :
    ((LruCache.construct capacity : Except Error (LruCache K V)) = .error .InvalidCapacity ↔
        capacity ≤ 0) ∧
      (0 < capacity →
        ∃ c : LruCache K V, LruCache.construct capacity = .ok c ∧
          c.m_map = [] ∧ c.m_keyQueue = [] ∧
          (∀ key, c.Get key = (.error .KeyNotFound, c)) ∧
          (capacity ≤ INT_MAX → (c.GetCapacity : Int) = capacity)) := by
  constructor
  · by_cases h : 0 ≥ capacity
    · simp only [LruCache.construct, h, if_true, true_iff]
    · simp only [LruCache.construct, h, if_false]
      constructor
      · intro h1
        cases h1
      · intro h1
        exact h1.elim
  · intro hpos
    have h : ¬ 0 ≥ capacity := by omega
    refine ⟨{ m_capacity := (capacity % 2 ^ 64).toNat, m_map := [], m_keyQueue := [] },
      by simp only [LruCache.construct, h, if_false], rfl, rfl, ?_, ?_⟩
    · intro key
      exact LruCache.Get_absent _ key rfl
    · intro hhi
      unfold INT_MAX at hhi
      simp only [LruCache.GetCapacity]
      omega

/-- C7, at an example: the greatest `int` is accepted. -/
theorem construct_fails_iff_nonpositive_witness :
    (0 : Int) < INT_MAX ∧
      ∃ c : LruCache Nat Nat, LruCache.construct INT_MAX = .ok c ∧
        c.m_map = [] ∧ c.m_keyQueue = [] ∧
        (∀ key, c.Get key = (.error .KeyNotFound, c)) ∧
        (INT_MAX ≤ INT_MAX → (c.GetCapacity : Int) = INT_MAX) :=
  ⟨by decide, (construct_fails_iff_nonpositive INT_MAX).2 (by decide)⟩

/-- C8: the code departs from the claim in a reachable cache whose key type does not survive the
erased read: capacity 1 holding `A`. `Get(A)` returns a value, so it touches `A`; `B` is then not
resident and differs from `A`. After `Set` on the one new key `B`, which throws "content mismatch",
`A` is still resident although the number of new keys is not below the capacity. -/
theorem touched_key_stays_at_capacity :
    Reachable (runOps exampleLongOne [Op.Set longA 0]) ∧
      touched (runOps exampleLongOne [Op.Set longA 0]) (Op.Get longA) = some longA ∧
      ([(longB, 1)].map Prod.fst).Nodup ∧
      (∀ j ∈ [(longB, 1)].map Prod.fst,
        ¬ (step (runOps exampleLongOne [Op.Set longA 0]) (Op.Get longA)).resident j ∧
          j ≠ longA) ∧
      (runOps (step (runOps exampleLongOne [Op.Set longA 0]) (Op.Get longA))
        ([(longB, 1)].map (fun e => Op.Set e.1 e.2))).resident longA ∧
      ¬ ([(longB, 1)].length < (runOps exampleLongOne [Op.Set longA 0]).m_capacity) :=
  ⟨reachable_exampleLongOne.runOps _, rfl, by decide, by decide, by decide, by decide⟩

/-- C9: the code departs from the claim where the string that the read through the erased iterator
gives is also used as a key by the caller: capacity 2, history `Set(A,0)`, `Get(A)`, `Set(G,1)` with
`G` that string. `A` and `G` are resident and the last touch of `G` is later than that of `A`. The
further call `Set(C,2)` does not touch `A`; it evicts the entry of `G`, which the back of the queue
names, and `A` stays resident. -/
theorem less_recent_key_outlives_more_recent :
    (2 : Int) ≤ INT_MAX ∧ LruCache.construct 2 = .ok exampleLongTwo ∧
      Reachable exampleLongShadow ∧
      exampleLongShadow.resident longA ∧
      exampleLongShadow.resident LongKey.garbage ∧
      touchedAfter (touchLog exampleLongTwo exampleLongShadowHistory) LongKey.garbage longA ∧
      some longA ∉ touchLog exampleLongShadow [Op.Set (LongKey.text 2) 2] ∧
      (runOps exampleLongShadow ([Op.Set (LongKey.text 2) 2].take 1)).resident longA ∧
      ¬ (runOps exampleLongShadow ([Op.Set (LongKey.text 2) 2].take 1)).resident
        LongKey.garbage :=
  ⟨by decide, rfl, reachable_exampleLongShadow, by decide, by decide,
    ⟨2, 1, rfl, rfl, by decide⟩, by decide, by decide, by decide⟩

/-- C10: the code departs from the claim after a history on keys that do not survive the erased
read: capacity 1, `Set(A,0)`, `Get(A)`. `A` is resident and its last touch is the `Get`, but the
recency ordering does not list `A`: its one element is what was read through the erased iterator,
which is not resident and has no touch in the history. The cache is full and `B` is not resident,
yet `Set(B,1)` evicts no key. -/
theorem recency_order_loses_touched_key :
    (1 : Int) ≤ INT_MAX ∧ LruCache.construct 1 = .ok exampleLongOne ∧
      (runOps exampleLongOne [Op.Set longA 0, Op.Get longA]).resident longA ∧
      lastTouch (touchLog exampleLongOne [Op.Set longA 0, Op.Get longA]) longA = some 1 ∧
      longA ∉ (runOps exampleLongOne [Op.Set longA 0, Op.Get longA]).keys ∧
      (runOps exampleLongOne [Op.Set longA 0, Op.Get longA]).keys = [LongKey.garbage] ∧
      ¬ (runOps exampleLongOne [Op.Set longA 0, Op.Get longA]).resident LongKey.garbage ∧
      lastTouch (touchLog exampleLongOne [Op.Set longA 0, Op.Get longA]) LongKey.garbage =
        none ∧
      (runOps exampleLongOne [Op.Set longA 0, Op.Get longA]).m_map.length =
        (runOps exampleLongOne [Op.Set longA 0, Op.Get longA]).m_capacity ∧
      ¬ (runOps exampleLongOne [Op.Set longA 0, Op.Get longA]).resident longB ∧
      ((runOps exampleLongOne [Op.Set longA 0, Op.Get longA]).Set longB 1).2.resident longA ∧
      ¬ ((runOps exampleLongOne [Op.Set longA 0, Op.Get longA]).Set longB 1).2.resident
        longB :=
  ⟨by decide, rfl, by decide, rfl, by decide, by decide, by decide, rfl, by decide, by decide,
    by decide, by decide⟩

/-- C12: the code departs from the claim in a reachable full cache whose key type does not survive
the erased read: capacity 1 after `Set(A,0)` and `Get(A)`. `Set(B,1)` raises an error: the back key
of the queue is missing from the index, and `RemoveLeastRecentlyUsedItem` takes the "content
mismatch" branch. -/
theorem Set_throws_content_mismatch :
    Reachable exampleLongHit ∧
      (exampleLongHit.Set longB 1).1 = .error .ContentMismatch ∧
      (exampleLongHit.Set longB 1).1 ≠ .ok () ∧
      exampleLongHit.m_map.length = exampleLongHit.m_capacity ∧
      list_back exampleLongHit.m_keyQueue = some LongKey.garbage ∧
      map_find exampleLongHit.m_map LongKey.garbage = none ∧
      exampleLongHit.RemoveLeastRecentlyUsedItem.1 = .error .ContentMismatch :=
  ⟨reachable_exampleLongHit, rfl, (fun h => by cases h), by decide, by decide, by decide, rfl⟩

/-- C13: the code departs from the claim in reachable caches whose key type does not survive the
erased read. With capacity 1, after `Set(A,0)` and `Get(A)`, the index holds `A`, which the queue
does not hold, and the queue holds what was read through the erased iterator, which the index does
not hold. With capacity 2, after `Set(A,0)`, `Set(B,1)`, `Get(A)` and `Get(B)`, the queue holds that
key twice. -/
theorem index_keys_differ_from_queue_keys :
    Reachable exampleLongHit ∧
      exampleLongHit.m_map.map Prod.fst = [longA] ∧
      exampleLongHit.keys = [LongKey.garbage] ∧
      longA ∉ exampleLongHit.keys ∧
      LongKey.garbage ∉ exampleLongHit.m_map.map Prod.fst ∧
      Reachable (runOps exampleLongPair [Op.Get longA, Op.Get longB]) ∧
      (runOps exampleLongPair [Op.Get longA, Op.Get longB]).keys =
        [LongKey.garbage, LongKey.garbage] ∧
      ¬ (runOps exampleLongPair [Op.Get longA, Op.Get longB]).keys.Nodup :=
  ⟨reachable_exampleLongHit, by decide, by decide, by decide, by decide,
    reachable_exampleLongPair.runOps _, by decide, by decide⟩

/-- C14: for every positive `int` capacity the constructor succeeds and `GetCapacity` of the
constructed cache returns that capacity, and it still returns it after every sequence of `Get`
and `Set` calls, failing ones included.  `GetCapacity` is a `const` member function: it is a
function of the cache that yields a number and no new cache. -/
theorem GetCapacity_is_constructed_capacity (capacity : Int) (hpos : 0 < capacity)
    (hhi : capacity ≤ INT_MAX) :
    ∃ c0 : LruCache K V, LruCache.construct capacity = .ok c0 ∧
      (c0.GetCapacity : Int) = capacity ∧
      ∀ ops : List (Op K V), ((runOps c0 ops).GetCapacity : Int) = capacity := by
  have h : ¬ 0 ≥ capacity := by omega
  have hcon : (LruCache.construct capacity : Except Error (LruCache K V)) =
      .ok { m_capacity := (capacity % 2 ^ 64).toNat, m_map := [], m_keyQueue := [] } := by
    simp only [LruCache.construct, h, if_false]
  have hcap : (((capacity % 2 ^ 64).toNat : Nat) : Int) = capacity := by
    unfold INT_MAX at hhi
    omega
  refine ⟨_, hcon, hcap, ?_⟩
  intro ops
  simp only [LruCache.GetCapacity]
  rw [capacity_runOps _ ops]
  exact hcap

/-- C14, at an example: capacity 2. -/
theorem GetCapacity_is_constructed_capacity_witness :
    (0 : Int) < 2 ∧ (2 : Int) ≤ INT_MAX ∧
      ∃ c0 : LruCache Nat Nat, LruCache.construct 2 = .ok c0 ∧
        (c0.GetCapacity : Int) = 2 ∧
        ∀ ops : List (Op Nat Nat), ((runOps c0 ops).GetCapacity : Int) = 2 :=
  ⟨by decide, by decide, GetCapacity_is_constructed_capacity 2 (by decide) (by decide)⟩

/-- C15: the code departs from the claim on the reachable empty cache of capacity 1 whose key type
does not survive the erased read. Both `Set(A,0)` calls succeed, but after one call the recency
ordering is `A` and after two it is what the second call read through the erased iterator: the two
states differ. -/
theorem Set_twice_differs_from_Set_once :
    Reachable exampleLongOne ∧
      (exampleLongOne.Set longA 0).1 = .ok () ∧
      ((exampleLongOne.Set longA 0).2.Set longA 0).1 = .ok () ∧
      (exampleLongOne.Set longA 0).2.keys = [longA] ∧
      ((exampleLongOne.Set longA 0).2.Set longA 0).2.keys = [LongKey.garbage] ∧
      ((exampleLongOne.Set longA 0).2.Set longA 0).2.keys ≠
        (exampleLongOne.Set longA 0).2.keys ∧
      ((exampleLongOne.Set longA 0).2.Set longA 0).2 ≠ (exampleLongOne.Set longA 0).2 :=
  ⟨reachable_exampleLongOne, rfl, rfl, by decide, by decide, by decide,
    fun h => absurd (congrArg LruCache.keys h) (by decide)⟩

/-- C16: take a cache constructed with an `int` capacity and a sequence of calls whose `Set` calls
use at most `capacity` distinct keys. Then nothing is ever evicted: after each initial segment of
the sequence every key set in that segment is resident; and at the end every key that was set is
resident and `Get` on it succeeds with the value of the last `Set` on it. This holds whatever the
read through the erased iterator in `UpdateKeyQueue` gives. -/
theorem no_eviction_within_capacity (capacity : Int) (c0 : LruCache K V)
    (hhi : capacity ≤ INT_MAX) (hcon : LruCache.construct capacity = .ok c0)
    (ops : List (Op K V)) (hfew : (setKeys ops).dedup.length ≤ c0.m_capacity) :
    (∀ n, ∀ key ∈ setKeys (ops.take n), (runOps c0 (ops.take n)).resident key) ∧
      (∀ key ∈ setKeys ops, (runOps c0 ops).resident key ∧
        ∃ value, lastSet ops key = some value ∧
          (runOps c0 ops).lookup key = some value ∧
          ((runOps c0 ops).Get key).1 = .ok value) := by
  have hc0 := LruCache.Tracked_construct capacity c0 hhi hcon
  have hmap : c0.m_map = [] := by
    rw [(LruCache.construct_eq_ok capacity c0 hcon).2]
  constructor
  · intro n key hkey
    have hn : (setKeys (ops.take n)).dedup.length ≤ c0.m_capacity :=
      le_trans (dedup_length_mono _ _ (setKeys_take_subset ops n)) hfew
    exact (residents_eq_setKeys c0 hc0 hmap _ hn key).1.2 hkey
  · intro key hkey
    obtain ⟨hiff, hlive⟩ := residents_eq_setKeys c0 hc0 hmap ops hfew key
    have hres := hiff.2 hkey
    have hl := hlive hres
    obtain ⟨value, hv⟩ := (resident_iff_lookup _ key).1 hres
    obtain ⟨p1, p2, hsplit, hno, _⟩ := live_history c0 hc0 hmap ops key value hl hv
    refine ⟨hres, value, ?_, hv, LruCache.Get_ok_of_live _ key value hl hv⟩
    rw [hsplit]
    exact lastSet_of_split p1 p2 key value hno

/-- C16, at an example with keys that do not survive the erased read: capacity 2, `Set(A,7)`,
`Set(B,1)`, `Set(A,0)`, `Get(B)`, `Get(A)`, which set two distinct keys. -/
theorem no_eviction_within_capacity_witness :
    (2 : Int) ≤ INT_MAX ∧ LruCache.construct 2 = .ok exampleLongTwo ∧
      (setKeys [Op.Set longA 7, Op.Set longB 1, Op.Set longA 0, Op.Get longB,
        Op.Get longA]).dedup.length ≤ exampleLongTwo.m_capacity ∧
      (∀ n, ∀ key ∈ setKeys (([Op.Set longA 7, Op.Set longB 1, Op.Set longA 0, Op.Get longB,
          Op.Get longA] : List (Op LongKey Nat)).take n),
        (runOps exampleLongTwo (([Op.Set longA 7, Op.Set longB 1, Op.Set longA 0,
          Op.Get longB, Op.Get longA] : List (Op LongKey Nat)).take n)).resident key) ∧
      (∀ key ∈ setKeys ([Op.Set longA 7, Op.Set longB 1, Op.Set longA 0, Op.Get longB,
          Op.Get longA] : List (Op LongKey Nat)),
        (runOps exampleLongTwo [Op.Set longA 7, Op.Set longB 1, Op.Set longA 0,
          Op.Get longB, Op.Get longA]).resident key ∧
        ∃ value, lastSet [Op.Set longA 7, Op.Set longB 1, Op.Set longA 0, Op.Get longB,
            Op.Get longA] key = some value ∧
          (runOps exampleLongTwo [Op.Set longA 7, Op.Set longB 1, Op.Set longA 0,
            Op.Get longB, Op.Get longA]).lookup key = some value ∧
          ((runOps exampleLongTwo [Op.Set longA 7, Op.Set longB 1, Op.Set longA 0,
            Op.Get longB, Op.Get longA]).Get key).1 = .ok value) :=
  ⟨by decide, rfl, by decide,
    no_eviction_within_capacity 2 exampleLongTwo (by decide) rfl
      [Op.Set longA 7, Op.Set longB 1, Op.Set longA 0, Op.Get longB, Op.Get longA]
      (by decide)⟩

/-- C18: when the index holds fewer than `capacity` entries and the key is not resident,
`Set` succeeds and removes nothing: the new recency ordering is the key followed by the whole
old ordering, the index is the old index with one more entry, which maps the key to the value,
every other key has the value it had, and both containers grow by one element.  This holds in
every state, the reachable ones included. -/
theorem Set_below_capacity_inserts (c : LruCache K V) (key : K) (value : V)
    (hroom : c.m_map.length < c.m_capacity) (hnew : ¬ c.resident key) :
    (c.Set key value).1 = .ok () ∧
      (c.Set key value).2.keys = key :: c.keys ∧
      (∃ it, (c.Set key value).2.m_map = (key, (value, it)) :: c.m_map) ∧
      (∀ j, (c.Set key value).2.lookup j = if j = key then some value else c.lookup j) ∧
      (∀ j, (c.Set key value).2.resident j ↔ j = key ∨ c.resident j) ∧
      (c.Set key value).2.m_map.length = c.m_map.length + 1 ∧
      (c.Set key value).2.m_keyQueue.length = c.m_keyQueue.length + 1 ∧
      (c.Set key value).2.m_capacity = c.m_capacity := by
  have hnone := (not_resident_iff c key).1 hnew
  rw [LruCache.Set_new_room c key value hnone (Nat.ne_of_lt hroom)]
  refine ⟨rfl, LruCache.keys_inserted c key value, ⟨_, rfl⟩, ?_, ?_, ?_, ?_, rfl⟩
  · intro j
    simp only [LruCache.lookup, LruCache.map_find_inserted]
    by_cases hj : j = key
    · simp [hj]
    · simp [hj]
  · intro j
    simp only [LruCache.resident, LruCache.map_find_inserted]
    by_cases hj : j = key
    · simp [hj]
    · simp [hj]
  · simp [LruCache.inserted]
  · simp [LruCache.inserted, list_push_front]

/-- C18, at an example: capacity 2 holding key 0 only, `Set(1,1)`. -/
theorem Set_below_capacity_inserts_witness :
    (runOps exampleEmpty [Op.Set 0 0]).m_map.length <
        (runOps exampleEmpty [Op.Set 0 0]).m_capacity ∧
      ¬ (runOps exampleEmpty [Op.Set 0 0]).resident 1 ∧
      ((runOps exampleEmpty [Op.Set 0 0]).Set 1 1).1 = .ok () ∧
      ((runOps exampleEmpty [Op.Set 0 0]).Set 1 1).2.keys =
        1 :: (runOps exampleEmpty [Op.Set 0 0]).keys ∧
      (∃ it, ((runOps exampleEmpty [Op.Set 0 0]).Set 1 1).2.m_map =
        (1, (1, it)) :: (runOps exampleEmpty [Op.Set 0 0]).m_map) ∧
      (∀ j, ((runOps exampleEmpty [Op.Set 0 0]).Set 1 1).2.lookup j =
        if j = 1 then some 1 else (runOps exampleEmpty [Op.Set 0 0]).lookup j) ∧
      (∀ j, ((runOps exampleEmpty [Op.Set 0 0]).Set 1 1).2.resident j ↔
        j = 1 ∨ (runOps exampleEmpty [Op.Set 0 0]).resident j) ∧
      ((runOps exampleEmpty [Op.Set 0 0]).Set 1 1).2.m_map.length =
        (runOps exampleEmpty [Op.Set 0 0]).m_map.length + 1 ∧
      ((runOps exampleEmpty [Op.Set 0 0]).Set 1 1).2.m_keyQueue.length =
        (runOps exampleEmpty [Op.Set 0 0]).m_keyQueue.length + 1 ∧
      ((runOps exampleEmpty [Op.Set 0 0]).Set 1 1).2.m_capacity =
        (runOps exampleEmpty [Op.Set 0 0]).m_capacity :=
  ⟨by decide, by decide,
    Set_below_capacity_inserts (runOps exampleEmpty [Op.Set 0 0]) 1 1 (by decide) (by decide)⟩

/-- C19: the code departs from the claim in a reachable cache whose key type does not survive the
erased read: capacity 1 after `Set(A,0)` and `Get(A)`. The iterator stored in the entry of `A`
designates the front node of the queue, which `UpdateKeyQueue` pushed, but that node holds what was
read through the erased iterator and not `A`. -/
theorem stored_iterator_resolves_to_erased_read :
    Reachable exampleLongHit ∧
      map_find exampleLongHit.m_map longA = some (0, some 1) ∧
      list_begin exampleLongHit.m_keyQueue = some 1 ∧
      list_deref exampleLongHit.m_keyQueue (some 1) = some LongKey.garbage ∧
      list_deref exampleLongHit.m_keyQueue (some 1) ≠ some longA :=
  ⟨reachable_exampleLongHit, by decide, by decide, by decide, by decide⟩

/-- C20: the code departs from the claim on keys that do not survive the erased read: capacity 1,
calls `Set(A,0)`, `Get(A)`, `Set(B,1)`. The cache answers the third call with the "content mismatch"
error where the reference model answers without error, and after the second call the key order of
the model is `A` while the recency ordering of the cache is what was read through the erased
iterator. -/
theorem cache_departs_from_reference_model :
    (0 : Int) < 1 ∧ (1 : Int) ≤ INT_MAX ∧ LruCache.construct 1 = .ok exampleLongOne ∧
      outcomes exampleLongOne [Op.Set longA 0, Op.Get longA, Op.Set longB 1] =
        [.ok none, .ok (some 0), .error .ContentMismatch] ∧
      refOutcomes (1 : Int).toNat [] [Op.Set longA 0, Op.Get longA, Op.Set longB 1] =
        [.ok none, .ok (some 0), .ok none] ∧
      outcomes exampleLongOne [Op.Set longA 0, Op.Get longA, Op.Set longB 1] ≠
        refOutcomes (1 : Int).toNat [] [Op.Set longA 0, Op.Get longA, Op.Set longB 1] ∧
      (refRun (1 : Int).toNat [] [Op.Set longA 0, Op.Get longA]).map Prod.fst = [longA] ∧
      (runOps exampleLongOne [Op.Set longA 0, Op.Get longA]).keys = [LongKey.garbage] :=
  ⟨by decide, by decide, rfl, rfl, rfl,
    (fun h => absurd (congrArg (fun l => l.map Except.toBool) h) (by decide)),
    by decide, by decide⟩

end claims

end lru_cache
